import Mathlib

/-!
Shallow embedding of `src/logic.py` (DynamicGrid backtest engine).

Prices are modelled as exact rationals (the Python code uses binary floats;
all claims under study are about control flow, counts and exact algebraic
identities, none about float rounding).  Pandas `NaN` entries are modelled
as `Option` `none` values.  Timestamps are (calendar-day number, second of
day); pandas timestamp order is the lexicographic order, and
`Timedelta.days` is floor of the second difference over 86400.
-/

namespace DynamicGrid

/-- A timestamp: calendar day number (days since an epoch) and second of day. -/
structure Timestamp where
  date : ℕ
  tod : ℕ
deriving DecidableEq, Repr

/-- Absolute second count of a timestamp (for pandas timestamp comparison
and `Timedelta` computation). -/
def Timestamp.abs (t : Timestamp) : ℕ := t.date * 86400 + t.tod

/-- pandas timestamp `≤`. -/
def tsLe (a b : Timestamp) : Bool := decide (a.abs ≤ b.abs)

/-- pandas timestamp `<`. -/
def tsLt (a b : Timestamp) : Bool := decide (a.abs < b.abs)

/-- Python `Timedelta(b - a).days` for `a ≤ b`. -/
def daysBetween (a b : Timestamp) : ℕ := (b.abs - a.abs) / 86400

/-- A tick of the input price series: `(timestamp, price)`. -/
abbrev Tick := Timestamp × ℚ

/-- Position side, the `"BUY"` / `"SELL"` strings of the source. -/
inductive Side where
  | buy
  | sell
deriving DecidableEq, Repr

/-- An open position: the `(side, entry_price, size)` tuples held in
`self.positions`. -/
structure Pos where
  side : Side
  entry : ℚ
  size : ℚ
deriving DecidableEq, Repr

/-- Trade-record kinds, the type strings written to `self.trade_history`. -/
inductive TradeKind where
  | BUY
  | SELL
  | TAKE_PROFIT_BUY
  | TAKE_PROFIT_SELL
  | CLOSE_PAIR
  | CLOSE_BUY
  | CLOSE_SELL
  | TOTAL_FEE
  | OVERNIGHT_FEE
deriving DecidableEq, Repr

/-- The `CLOSE_` kind per side used by `close_all_positions`. -/
def closeKind : Side → TradeKind
  | .buy => .CLOSE_BUY
  | .sell => .CLOSE_SELL

/-- One `self.trade_history` entry
`(timestamp, type, price, size, profit, fee)`; within `backtest` the
profit/fee slots are always numeric (0 where the source passes `fee=0`
or `profit=0`). -/
structure TradeRec where
  ts : Timestamp
  kind : TradeKind
  price : ℚ
  size : ℚ
  profit : ℚ
  fee : ℚ
deriving DecidableEq, Repr

/-- Constructor parameters of `DynamicGridBacktest.__init__`. -/
structure Config where
  capital : ℚ
  contract_value : ℚ
  margin_rate : ℚ
  fee_per_trade : ℚ
  grid_size_factor : ℚ
  minimum_grid_size : ℚ
  move_pivot : ℚ
  max_loss : ℚ
  take_profit_factor : ℚ
deriving DecidableEq, Repr

/-- The default constructor arguments of `DynamicGridBacktest`. -/
def defaultConfig : Config :=
  { capital := 500000000
    contract_value := 100000
    margin_rate := 1/5
    fee_per_trade := 47/100
    grid_size_factor := 147/100
    minimum_grid_size := 2/5
    move_pivot := 6
    max_loss := 20
    take_profit_factor := 1 }

/-- Source `self.max_contracts = 12`. -/
def max_contracts : ℚ := 12
/-- Source `self.max_positions = 12`. -/
def max_positions : ℕ := 12
/-- Source `self.daily_fee_limit = 50000000`. -/
def daily_fee_limit : ℚ := 50000000
/-- Source `self.short_atr_window = 60`. -/
def short_atr_window : ℕ := 60
/-- Source `overnight_fee_per_position = 2550` in `apply_overnight_fee`. -/
def overnight_fee_per_position : ℚ := 2550

/-- Python `round(x, 1)`: nearest multiple of 1/10, ties to even
(Python's banker rounding, modelled exactly on ℚ). -/
def round1 (x : ℚ) : ℚ :=
  let y : ℚ := 10 * x
  let fl : ℤ := ⌊y⌋
  let fr : ℚ := y - fl
  let r : ℤ :=
    if fr < 1/2 then fl
    else if 1/2 < fr then fl + 1
    else if fl % 2 = 0 then fl else fl + 1
  (r : ℚ) / 10

/-- Model of `prices.diff().abs()` of a pandas Series, as a list of `Option ℚ`
(`none` marks the leading `NaN`). -/
def diffAbs : List ℚ → List (Option ℚ)
  | [] => []
  | p :: rest => none :: (List.zipWith (fun a b => some |b - a|) (p :: rest) rest)

/-- Source `calculate_atr(prices, window=w, last_valid_atr=lva)`, the
window-mode branch of the source's `calculate_atr`:
`atr = prices.diff().abs().tail(window).dropna().mean()`, returned only
when it is defined and at least `window // 2` valid differences exist,
otherwise `last_valid_atr`. -/
def calculate_atr_window (prices : List ℚ) (window : ℕ) (lva : ℚ) : ℚ :=
  let high_low := diffAbs prices
  let tailw := high_low.drop (high_low.length - window)
  let valid := tailw.filterMap id
  if valid.length ≠ 0 ∧ window / 2 ≤ valid.length then
    valid.sum / (valid.length : ℚ)
  else lva

/-- Source `is_trading_time`: local time within [09:00:00, 14:29:00]. -/
def is_trading_time (ts : Timestamp) : Bool :=
  decide (32400 ≤ ts.tod ∧ ts.tod ≤ 52140)

/-- Source `is_end_of_day`: local time within [14:29:00, 14:30:00]. -/
def is_end_of_day (ts : Timestamp) : Bool :=
  decide (52140 ≤ ts.tod ∧ ts.tod ≤ 52200)

/-- Mutable engine state during one `backtest` run.  The fields mirror
the `self.*` attributes used by `backtest`; `grid_size` and `size` are
the loop-local variables of `backtest` (line 120-121), which persist
across iterations. -/
structure St where
  capital : ℚ
  positions : List Pos
  trades : List (Side × ℚ × ℚ × ℚ)
  last_date : ℕ
  daily_fee : ℚ
  trade_history : List TradeRec
  last_valid_atr : ℚ
  daily_atr : Option ℚ
  current_pivot : ℚ
  grid_size : Option ℚ
  size : ℚ
  equity : List (Option ℚ)
deriving DecidableEq, Repr

/-- Number of BUY positions in a ledger. -/
def countBuys (l : List Pos) : ℕ := (l.filter (fun p => p.side = Side.buy)).length

/-- Number of SELL positions in a ledger. -/
def countSells (l : List Pos) : ℕ := (l.filter (fun p => p.side = Side.sell)).length

/-- Source `check_daily_fee(timestamp, fee)`: resets the accumulator on a date
change, adds the fee, and reports whether the daily limit is exceeded.
Returns the gate decision and the updated state. -/
def check_daily_fee (ts : Timestamp) (fee : ℚ) (st : St) : Bool × St :=
  let st :=
    if st.last_date ≠ ts.date then
      { st with daily_fee := 0, last_date := ts.date }
    else st
  let st := { st with daily_fee := st.daily_fee + fee }
  (decide (daily_fee_limit < st.daily_fee), st)

/-- Source `apply_overnight_fee(timestamp)`: charges 2550 per open position and
logs an `OVERNIGHT_FEE` record, when positions are open. -/
def apply_overnight_fee (ts : Timestamp) (st : St) : St :=
  if st.positions = [] then st
  else
    let n : ℚ := st.positions.length
    let total := n * overnight_fee_per_position
    { st with
      capital := st.capital - total
      trade_history := st.trade_history ++
        [⟨ts, .OVERNIGHT_FEE, 0, n, 0, total⟩] }

/-- The loop body of `close_all_positions`: iterates over the snapshot
`self.positions[:]`, closing each position (Python `list.remove`
removes the first equal element, `List.erase` here). -/
def closeAllLoop (cfg : Config) (price : ℚ) (ts : Timestamp) :
    List Pos → St → ℚ → ℚ → St × ℚ × ℚ
  | [], st, tp, tf => (st, tp, tf)
  | pos :: rest, st, tp, tf =>
    let pbf :=
      (if pos.side = Side.buy then price - pos.entry else pos.entry - price) *
        pos.size * cfg.contract_value
    let fee := cfg.fee_per_trade * cfg.contract_value
    let profit := pbf - fee
    let st :=
      { st with
        capital := st.capital + profit
        positions := st.positions.erase pos
        trade_history := st.trade_history ++
          [⟨ts, closeKind pos.side, price, pos.size, profit, fee⟩] }
    closeAllLoop cfg price ts rest st (tp + profit) (tf + fee)

/-- Source `close_all_positions(current_price, timestamp)`: closes every open
position, appends a `TOTAL_FEE` record when the accumulated fee is
positive, and returns the total realized profit. -/
def close_all_positions (cfg : Config) (price : ℚ) (ts : Timestamp) (st : St) :
    St × ℚ :=
  let (st, total_profit, total_fee) := closeAllLoop cfg price ts st.positions st 0 0
  let st :=
    if 0 < total_fee then
      { st with trade_history := st.trade_history ++
          [⟨ts, .TOTAL_FEE, price, 0, 0, total_fee⟩] }
    else st
  (st, total_profit)

/-- Source `calculate_grid(current_price, current_atr, prices, index)`.
In this embedding every ATR producer returns a defined rational (the
source's fallbacks guarantee non-NaN), so the `pd.isna(current_atr)`
branch is dead and `last_valid_atr` is always refreshed; similarly the
`pd.isna(short_atr)` re-check is dead because `calculate_atr` already
substitutes `last_valid_atr`.  Returns `(grid_size, size_per_level)`
and the updated state. -/
def calculate_grid (cfg : Config) (current_price current_atr : ℚ)
    (prices : List ℚ) (index : ℕ) (st : St) : ℚ × ℚ × St :=
  let _ := current_price
  let st := { st with last_valid_atr := current_atr }
  let grid := max (cfg.grid_size_factor * current_atr) cfg.minimum_grid_size
  let grid := min grid 10
  let size_per_level : ℚ := 1
  let total_open : ℚ := (st.positions.map (fun p => p.size)).sum
  let size_per_level := if max_contracts < total_open + size_per_level then 0 else size_per_level
  let grid :=
    if short_atr_window ≤ index then
      let short_atr := calculate_atr_window (prices.take (index + 1))
        short_atr_window st.last_valid_atr
      min (max grid (short_atr * cfg.grid_size_factor)) 10
    else grid
  (grid, size_per_level, st)

/-- Unrealized mark-to-market of the open positions at `price`
(the generator expression at lines 276-278 of the source). -/
def unrealized (cfg : Config) (price : ℚ) (l : List Pos) : ℚ :=
  (l.map (fun p =>
    if p.side = Side.sell then (p.entry - price) * p.size * cfg.contract_value
    else (price - p.entry) * p.size * cfg.contract_value)).sum

/-- Writes `self.equity_series.iloc[i] = v`. -/
def writeEquity (st : St) (i : ℕ) (v : ℚ) : St :=
  { st with equity := st.equity.set i (some v) }

/-- Source line 172: `self.max_loss_per_trade = 500000 * self.max_loss`. -/
def max_loss_per_trade (cfg : Config) : ℚ := 500000 * cfg.max_loss

/-- The take-profit / max-loss loop (source lines 176-220), iterating over
the snapshot `self.positions[:]`.  Carries the loop-local `grid_size` and
`size`; `tpThreshold` is the `take_profit` value computed at line 175 and
`ml` the `max_loss_per_trade` threshold.  Returns the state, the (possibly
recomputed) `grid_size` and `size`, and the `forced_close_triggered`
flag; the Python `break` on a max-loss hit ends the iteration. -/
def tpLossLoop (cfg : Config) (pvals : List ℚ) (i : ℕ) (price : ℚ)
    (ts : Timestamp) (tpThreshold ml : ℚ) :
    List Pos → St → ℚ → ℚ → St × ℚ × ℚ × Bool
  | [], st, gs, size => (st, gs, size, false)
  | pos :: rest, st, gs, size =>
    let closeTP (kind : TradeKind) (profit_before_fee : ℚ) : St :=
      let fee := cfg.fee_per_trade * cfg.contract_value
      let profit := profit_before_fee - fee
      { st with
        capital := st.capital + profit
        positions := st.positions.erase pos
        trade_history := st.trade_history ++
          [⟨ts, kind, price, pos.size, profit, fee⟩] }
    let maxLossHit (st : St) : St × ℚ × ℚ × Bool :=
      let (st, _) := close_all_positions cfg price ts st
      let st := { st with current_pivot := price }
      let current_atr := calculate_atr_window (pvals.take (i + 1))
        short_atr_window st.last_valid_atr
      let (gs, size, st) := calculate_grid cfg price current_atr pvals i st
      (st, gs, size, true)
    if pos.side = Side.buy then
      let profit := (price - pos.entry) * pos.size * cfg.contract_value
      if tpThreshold ≤ profit then
        tpLossLoop cfg pvals i price ts tpThreshold ml rest
          (closeTP .TAKE_PROFIT_BUY profit) gs size
      else
        let loss := if price < pos.entry
          then (pos.entry - price) * pos.size * cfg.contract_value else 0
        if ml ≤ loss then maxLossHit st
        else tpLossLoop cfg pvals i price ts tpThreshold ml rest st gs size
    else
      let profit := (pos.entry - price) * pos.size * cfg.contract_value
      if tpThreshold ≤ profit then
        tpLossLoop cfg pvals i price ts tpThreshold ml rest
          (closeTP .TAKE_PROFIT_SELL profit) gs size
      else
        let loss := if pos.entry < price
          then (price - pos.entry) * pos.size * cfg.contract_value else 0
        if ml ≤ loss then maxLossHit st
        else tpLossLoop cfg pvals i price ts tpThreshold ml rest st gs size

/-- The BUY half of one grid-level iteration of the new-entry loop
(source lines 232-252): open a BUY when the level is hit, the per-side
cap and the anti-duplication band allow it, then immediately pair it
against the oldest SELL if one exists.  Returns the state, the updated
`num_buys` / `num_sells`, and whether a pairing `continue` fired. -/
def entryBuyCheck (cfg : Config) (price : ℚ) (ts : Timestamp) (gs size : ℚ)
    (buy_level : ℚ) (st : St) (numBuys numSells : ℕ) : St × ℕ × ℕ × Bool :=
  let dupBuy := st.positions.any
    (fun p => decide (p.side = Side.buy ∧ |p.entry - price| < gs * (1/2)))
  if numBuys < 6 ∧ price ≤ buy_level ∧ ¬dupBuy then
    let st :=
      { st with
        positions := st.positions ++ [Pos.mk Side.buy price size]
        trades := st.trades ++ [(Side.buy, price, price, size)]
        trade_history := st.trade_history ++
          [TradeRec.mk ts TradeKind.BUY price size 0 0] }
    let numBuys := numBuys + 1
    match st.positions.filter (fun p => p.side = Side.sell) with
    | sell_pos :: _ =>
      let profit_before_fee := (sell_pos.entry - price) * size * cfg.contract_value
      let fee := cfg.fee_per_trade * cfg.contract_value
      let profit := profit_before_fee - fee
      let st :=
        { st with
          capital := st.capital + profit
          positions := (st.positions.erase sell_pos).erase
            (Pos.mk Side.buy price size)
          trade_history := st.trade_history ++
            [TradeRec.mk ts TradeKind.CLOSE_PAIR price size profit fee] }
      (st, numBuys - 1, numSells - 1, true)
    | [] => (st, numBuys, numSells, false)
  else (st, numBuys, numSells, false)

/-- The SELL half of one grid-level iteration (source lines 254-274),
symmetric to `entryBuyCheck`; reached only when the BUY half did not
end in a pairing `continue`. -/
def entrySellCheck (cfg : Config) (price : ℚ) (ts : Timestamp) (gs size : ℚ)
    (sell_level : ℚ) (st : St) (numBuys numSells : ℕ) : St × ℕ × ℕ :=
  let dupSell := st.positions.any
    (fun p => decide (p.side = Side.sell ∧ |p.entry - price| < gs * (1/2)))
  if numSells < 6 ∧ sell_level ≤ price ∧ ¬dupSell then
    let st :=
      { st with
        positions := st.positions ++ [Pos.mk Side.sell price size]
        trades := st.trades ++ [(Side.sell, price, price, size)]
        trade_history := st.trade_history ++
          [TradeRec.mk ts TradeKind.SELL price size 0 0] }
    let numSells := numSells + 1
    match st.positions.filter (fun p => p.side = Side.buy) with
    | buy_pos :: _ =>
      let profit_before_fee := (price - buy_pos.entry) * size * cfg.contract_value
      let fee := cfg.fee_per_trade * cfg.contract_value
      let profit := profit_before_fee - fee
      let st :=
        { st with
          capital := st.capital + profit
          positions := (st.positions.erase buy_pos).erase
            (Pos.mk Side.sell price size)
          trade_history := st.trade_history ++
            [TradeRec.mk ts TradeKind.CLOSE_PAIR price size profit fee] }
      (st, numBuys - 1, numSells - 1)
    | [] => (st, numBuys, numSells)
  else (st, numBuys, numSells)

/-- The new-entry loop over grid levels `n = 1..6` (source lines
228-274).  `numBuys` / `numSells` carry the Python `num_buys` /
`num_sells` counters; the Python `continue` after a BUY-side
`CLOSE_PAIR` skips the SELL half of the same `n`. -/
def entryLoop (cfg : Config) (price : ℚ) (ts : Timestamp) (gs size : ℚ) :
    List ℕ → ℕ → ℕ → St → St
  | [], _, _, st => st
  | n :: rest, numBuys, numSells, st =>
    let buy_level := round1 (st.current_pivot - ((n : ℚ) - 1/2) * gs)
    let sell_level := round1 (st.current_pivot + ((n : ℚ) - 1/2) * gs)
    let r := entryBuyCheck cfg price ts gs size buy_level st numBuys numSells
    let r2 :=
      if r.2.2.2 then (r.1, r.2.1, r.2.2.1)
      else entrySellCheck cfg price ts gs size sell_level r.1 r.2.1 r.2.2.1
    entryLoop cfg price ts gs size rest r2.2.1 r2.2.2 r2.1

/-- The pivot-breach block (source lines 163-170): when the price leaves
`[pivot - move_pivot*grid_size, pivot + move_pivot*grid_size]` strictly,
close all positions, rebase the pivot to the current price and recompute
the grid from a fresh short-window ATR.  Returns the state, `grid_size`,
`size` and whether the breach branch fired. -/
def breachStep (cfg : Config) (pvals : List ℚ) (i : ℕ) (price : ℚ)
    (ts : Timestamp) (st : St) (gs size : ℚ) : St × ℚ × ℚ × Bool :=
  let buypivot := st.current_pivot - cfg.move_pivot * gs
  let sellpivot := st.current_pivot + cfg.move_pivot * gs
  if price < buypivot ∨ sellpivot < price then
    let (st, _) := close_all_positions cfg price ts st
    let st := { st with current_pivot := price }
    let current_atr := calculate_atr_window (pvals.take (i + 1))
      short_atr_window st.last_valid_atr
    let (gs, size, st) := calculate_grid cfg price current_atr pvals i st
    (st, gs, size, true)
  else (st, gs, size, false)

/-- Ghost flags reporting which rebase branches executed during a tick
(used only to state the pivot-rebase claims, never read by the model). -/
structure TickFlags where
  breach : Bool
  maxLoss : Bool
deriving DecidableEq, Repr

/-- The date-rollover step of a tick (source lines 131-133). -/
def overnightStep (ts : Timestamp) (st : St) : St :=
  if ts.date ≠ st.last_date then
    let st := apply_overnight_fee ts st
    { st with last_date := ts.date }
  else st

/-- The day-`d` pre-market slice
`prices[(prices.index >= start_time) & (prices.index < end_time)]`
with `start_time` 08:45 and `end_time` 09:00 of day `d`
(source lines 136-138). -/
def premarketData (ps : List Tick) (d : ℕ) : List ℚ :=
  (ps.filter (fun q =>
    tsLe ⟨d, 31500⟩ q.1 && tsLt q.1 ⟨d, 32400⟩)).map (fun q => q.2)

/-- The daily-ATR bootstrap step (source lines 135-142): on a
trading-time tick with no daily ATR yet, derive it from the day's
08:45-09:00 pre-market window when that has at least two points, else
from the last valid ATR.  Note `calculate_atr` is called without a
`last_valid_atr` argument there, so its internal fallback is the
default 1.0 (never reached for windows of two or more points). -/
def dailyAtrStep (ps : List Tick) (ts : Timestamp) (st : St) : St :=
  if st.daily_atr = none ∧ is_trading_time ts then
    let daily_initial_data := premarketData ps ts.date
    if 2 ≤ daily_initial_data.length then
      let v := calculate_atr_window daily_initial_data daily_initial_data.length 1
      { st with daily_atr := some v }
    else { st with daily_atr := some st.last_valid_atr }
  else st

/-- Source lines 144-147: the ATR put into scope for the tick. -/
def currentAtrOf (ts : Timestamp) (st : St) : ℚ :=
  match st.daily_atr with
  | some a => if is_trading_time ts then a else st.last_valid_atr
  | none => st.last_valid_atr

/-- The new-entry block of a tick (source lines 222-274): gate on the
ledger cap, the computed size, the daily-fee check (invoked with fee 0)
and the forced-close flag, then scan the six grid levels. -/
def entryStep (cfg : Config) (price : ℚ) (ts : Timestamp) (gs size : ℚ)
    (forced : Bool) (st : St) : St :=
  if st.positions.length < max_positions ∧ 0 < size then
    let ck := check_daily_fee ts 0 st
    if ¬ck.1 ∧ ¬forced then
      entryLoop cfg price ts gs size [1, 2, 3, 4, 5, 6]
        (countBuys ck.2.positions) (countSells ck.2.positions) ck.2
    else ck.2
  else st

/-- The tail of a trading tick (source lines 276-285): equity mark,
persisting the loop-local `grid_size` / `size`, insolvency check and
final-tick liquidation. -/
def tickFinish (cfg : Config) (ps : List Tick) (i : ℕ) (price : ℚ)
    (ts : Timestamp) (flags : TickFlags) (gs size : ℚ) (st : St) :
    Option (St × TickFlags) :=
  let st := writeEquity st i (st.capital + unrealized cfg price st.positions)
  let st := { st with grid_size := some gs, size := size }
  if st.capital < 0 then none
  else if i = ps.length - 1 ∧ st.positions ≠ [] then
    some (writeEquity (close_all_positions cfg price ts st).1 i
      (close_all_positions cfg price ts st).1.capital, flags)
  else some (st, flags)

/-- The trading-path part of a tick (source lines 161-285): lazy grid
initialization, pivot-breach check, take-profit / max-loss loop, then
`entryStep` and `tickFinish`; `none` on the insolvency `return None`. -/
def tradingStep (cfg : Config) (ps : List Tick) (i : ℕ) (price : ℚ)
    (ts : Timestamp) (st : St) : Option (St × TickFlags) :=
  let pvals := ps.map (fun q => q.2)
  let ginit :=
    match st.grid_size with
    | none => calculate_grid cfg price (currentAtrOf ts st) pvals i st
    | some g => (g, st.size, st)
  let br := breachStep cfg pvals i price ts ginit.2.2 ginit.1 ginit.2.1
  let take_profit := cfg.take_profit_factor * br.2.1 * cfg.contract_value
  let tl := tpLossLoop cfg pvals i price ts take_profit
    (max_loss_per_trade cfg) br.1.positions br.1 br.2.1 br.2.2.1
  tickFinish cfg ps i price ts ⟨br.2.2.2, tl.2.2.2⟩ tl.2.1 tl.2.2.1
    (entryStep cfg price ts tl.2.1 tl.2.2.1 tl.2.2.2 tl.1)

/-- One iteration of the `backtest` loop (source lines 122-285) at index
`i`, for series `ps` whose last date is `lastDataDate`.  Returns `none`
when the iteration executes `return None` (insolvency, line 282). -/
def processTick (cfg : Config) (ps : List Tick) (lastDataDate : ℕ) (i : ℕ)
    (st : St) : Option (St × TickFlags) :=
  let t := ps.getD i (⟨0, 0⟩, 0)
  let ts := t.1
  let price := t.2
  let st := overnightStep ts st
  let st := dailyAtrStep ps ts st
  if ts.date = lastDataDate ∧ 52140 ≤ ts.tod ∧ st.positions ≠ [] then
    let (st, _) := close_all_positions cfg price ts st
    some (writeEquity st i st.capital, ⟨false, false⟩)
  else if ¬is_trading_time ts ∧ ¬is_end_of_day ts ∧ st.positions ≠ [] then
    some (st, ⟨false, false⟩)
  else if ¬is_trading_time ts ∨ is_end_of_day ts then
    some (writeEquity st i st.capital, ⟨false, false⟩)
  else
    tradingStep cfg ps i price ts st

/-- Runs `processTick` over the given indices, stopping with `none` at an
insolvency abort. -/
def runFrom (cfg : Config) (ps : List Tick) (lastDataDate : ℕ) :
    List ℕ → St → Option St
  | [], st => some st
  | i :: rest, st =>
    match processTick cfg ps lastDataDate i st with
    | none => none
    | some (st, _) => runFrom cfg ps lastDataDate rest st

/-- The state just before the loop of `backtest` starts (the `__init__`
fields together with the assignments at source lines 110-121), for a
series whose first tick is `t0`. -/
def initState (cfg : Config) (t0 : Tick) (n : ℕ) : St :=
  { capital := cfg.capital
    positions := []
    trades := []
    last_date := t0.1.date
    daily_fee := 0
    trade_history := []
    last_valid_atr := 1
    daily_atr := none
    current_pivot := t0.2
    grid_size := none
    size := 0
    equity := some cfg.capital :: List.replicate (n - 1) none }

/-- Engine state after the loop iterations `i = 1 .. k` of `backtest`
(`none` when the series is empty or the run aborted on insolvency). -/
def stateAfter (cfg : Config) (ps : List Tick) (k : ℕ) : Option St :=
  match ps with
  | [] => none
  | t0 :: _ =>
    runFrom cfg ps ((ps.getLastD t0).1.date) (List.range' 1 k)
      (initState cfg t0 ps.length)

/-- Sharpe/Sortino value as computed by the source.  The numeric value
`sqrt(252) * mean / std` is irrational in general, so the embedding
records the branch taken and, for the ratio branch, the mean of the
returns together with the (sample) variance whose square root is the
divisor; `undefinedStd` marks the case where pandas `std()` is NaN
(fewer than two observations), in which case the source's `!= 0` test
succeeds and the computed ratio is NaN. -/
inductive RatioVal where
  | undefinedStd
  | zeroStd
  | ratioOf (mean variance : ℚ)
deriving DecidableEq, Repr

/-- Sample mean of a list of rationals (length must be positive to be
meaningful; pandas returns NaN on the empty list, which the callers in
this embedding never hit on the ratio path). -/
def listMean (l : List ℚ) : ℚ := l.sum / (l.length : ℚ)

/-- Sample variance with one delta degree of freedom (pandas
`Series.std()` squared); defined only when the list has at least two
elements. -/
def sampleVar (l : List ℚ) : ℚ :=
  let m := listMean l
  ((l.map (fun x => (x - m) ^ 2)).sum) / ((l.length : ℚ) - 1)

/-- The source's `sharpe_ratio` computation: pandas `std()` is NaN below
two observations (the `!= 0` guard then passes and the ratio itself is
NaN), zero variance yields the literal 0, otherwise the ratio branch. -/
def sharpeOf (numerator denominators : List ℚ) : RatioVal :=
  if denominators.length ≤ 1 then .undefinedStd
  else if sampleVar denominators = 0 then .zeroStd
  else .ratioOf (listMean numerator) (sampleVar denominators)

/-- Running maximum (`Series.cummax`). -/
def cummax : List ℚ → List ℚ
  | [] => []
  | x :: rest => x :: (cummax rest).map (fun y => max x y)

/-- Maximal runs of consecutive `true` flags, keeping the timestamps of
each run; this reproduces the pandas
`(in_drawdown != in_drawdown.shift()).cumsum()` grouping of the source's
longest-drawdown computation. -/
def trueRunsAux : List (Timestamp × Bool) → List Timestamp → List (List Timestamp)
  | [], acc => if acc.isEmpty then [] else [acc.reverse]
  | (t, b) :: rest, acc =>
    if b then trueRunsAux rest (t :: acc)
    else (if acc.isEmpty then [] else [acc.reverse]) ++ trueRunsAux rest []

/-- Helper: day span of one drawdown run. -/
def runDuration : List Timestamp → ℕ
  | [] => 0
  | t :: rest => daysBetween t ((t :: rest).getLastD t)

/-- Forward fill of the daily resample (pandas `pct_change` pads missing
values before differencing), seeded with the first day's value. -/
def ffill (seed : ℚ) : List (Option ℚ) → List ℚ
  | [] => []
  | none :: rest => seed :: ffill seed rest
  | some v :: rest => v :: ffill v rest

/-- Daily returns: `equity.resample('D').last().pct_change().dropna()`.
Calendar-day bins run from the first to the last equity date; a day's
observation is the last equity value of that day; padding makes a
missing day's return 0; the undefined leading return is dropped. -/
def dailyReturns (eq : List (Timestamp × ℚ)) : List ℚ :=
  match eq with
  | [] => []
  | e0 :: _ =>
    let d0 := e0.1.date
    let d1 := ((eq.getLastD e0).1).date
    let dailyLast : List (Option ℚ) :=
      (List.range (d1 + 1 - d0)).map (fun k =>
        ((eq.filter (fun e => e.1.date = d0 + k)).getLast?).map (fun e => e.2))
    let filled := ffill e0.2 dailyLast
    List.zipWith (fun prev next => next / prev - 1) filled (filled.drop 1)

/-- The metrics bundle of `calculate_performance_metrics`.  The source's
`annual_return = ((1 + hpr/100) ** (252/days) - 1) * 100` is irrational
in general; its two inputs `hpr` and `days` are recorded here, and its
only failure mode (`days = 0`, a `ZeroDivisionError`) is modelled by
`RunOutcome.zeroDaySpan`. -/
structure Metrics where
  hpr : ℚ
  days : ℕ
  max_drawdown : ℚ
  longest_drawdown : ℕ
  turnover_ratio : ℚ
  sharpe_ratio : RatioVal
  sortino_ratio : RatioVal
  daily_returns : List ℚ
  final_capital : ℚ
deriving DecidableEq, Repr

/-- Outcome of running `backtest`: `noData` and `insolvent` are the two
`return None` paths of `backtest` itself, `emptyEquity` the `return
None` of `calculate_performance_metrics`, and `zeroDaySpan` the
uncaught `ZeroDivisionError` raised by `252 / days` when the recorded
equity span is below one calendar day. -/
inductive RunOutcome where
  | noData
  | insolvent
  | emptyEquity
  | zeroDaySpan
  | ok (m : Metrics)
deriving DecidableEq, Repr

/-- The `equity = self.equity_series.dropna()` step: pair the equity
slots with the tick timestamps and keep the present entries. -/
def dropnaEquity (ps : List Tick) (st : St) : List (Timestamp × ℚ) :=
  (List.zip (ps.map (fun q => q.1)) st.equity).filterMap
    (fun e => e.2.map (fun v => (e.1, v)))

/-- Source `calculate_performance_metrics`, over the finished equity
series and the end-of-run state. -/
def calculate_performance_metrics (cfg : Config) (ps : List Tick) (st : St) :
    RunOutcome :=
  match dropnaEquity ps st with
  | [] => .emptyEquity
  | e0 :: _ =>
    let eq := dropnaEquity ps st
    let elast := eq.getLastD e0
    let hpr := (elast.2 / e0.2 - 1) * 100
    let days := daysBetween e0.1 elast.1
    if days = 0 then .zeroDaySpan
    else
      let rolling_max := cummax (eq.map (fun e => e.2))
      let drawdowns := List.zipWith (fun v m => (v - m) / m * 100)
        (eq.map (fun e => e.2)) rolling_max
      let max_drawdown := drawdowns.foldr min 0
      let ddFlags := List.zip (eq.map (fun e => e.1))
        (drawdowns.map (fun d => decide (d < 0)))
      let durations := (trueRunsAux ddFlags []).map runDuration
      let longest_drawdown := durations.foldr max 0
      let total_volume := (st.trades.map (fun t => |t.2.2.2|)).sum
      let turnover_ratio := total_volume * cfg.contract_value / st.capital * 100
      let rets := dailyReturns eq
      let downside := rets.filter (fun r => r < 0)
      { hpr := hpr
        days := days
        max_drawdown := max_drawdown
        longest_drawdown := longest_drawdown
        turnover_ratio := turnover_ratio
        sharpe_ratio := sharpeOf rets rets
        sortino_ratio := if downside.isEmpty then .zeroStd else sharpeOf rets downside
        daily_returns := rets
        final_capital := elast.2 : Metrics } |> RunOutcome.ok

/-- Source `DynamicGridBacktest.backtest(prices)`: empty input returns
`None`; otherwise the tick loop runs over indices `1 .. len-1` and, if
it does not abort on insolvency, the performance metrics are computed. -/
def backtest (cfg : Config) (ps : List Tick) : RunOutcome :=
  match ps with
  | [] => .noData
  | t0 :: _ =>
    match runFrom cfg ps ((ps.getLastD t0).1.date)
        (List.range' 1 (ps.length - 1)) (initState cfg t0 ps.length) with
    | none => .insolvent
    | some st => calculate_performance_metrics cfg ps st

/-! ### Helper lemmas -/

/-- Per-position realized profit of a forced close at `price` (the body
of the `close_all_positions` loop). -/
def pnlOf (cfg : Config) (price : ℚ) (p : Pos) : ℚ :=
  (if p.side = Side.buy then price - p.entry else p.entry - price) *
    p.size * cfg.contract_value - cfg.fee_per_trade * cfg.contract_value

/-- The `CLOSE_{side}`-record written for one position by
`close_all_positions`. -/
def closeRec (cfg : Config) (price : ℚ) (ts : Timestamp) (p : Pos) : TradeRec :=
  ⟨ts, closeKind p.side, price, p.size, pnlOf cfg price p,
    cfg.fee_per_trade * cfg.contract_value⟩

theorem closeAllLoop_spec (cfg : Config) (price : ℚ) (ts : Timestamp) :
    ∀ (l : List Pos) (st : St) (tp tf : ℚ), st.positions = l →
      closeAllLoop cfg price ts l st tp tf =
        ({ st with
            positions := []
            capital := st.capital + (l.map (pnlOf cfg price)).sum
            trade_history := st.trade_history ++ l.map (closeRec cfg price ts) },
          tp + (l.map (pnlOf cfg price)).sum,
          tf + l.length * (cfg.fee_per_trade * cfg.contract_value)) := by
  intro l
  induction l with
  | nil =>
    intro st tp tf h
    simp [closeAllLoop, h]
    rw [← h]
  | cons pos rest ih =>
    intro st tp tf h
    rw [closeAllLoop]
    rw [ih _ _ _ (by rw [h, List.erase_cons_head])]
    simp only [h, List.map_cons, List.sum_cons, List.length_cons, closeRec, pnlOf]
    refine Prod.ext ?_ (Prod.ext ?_ ?_) <;> simp <;> ring

theorem close_all_spec (cfg : Config) (price : ℚ) (ts : Timestamp) (st : St) :
    close_all_positions cfg price ts st =
      (let base : St :=
        { st with
          positions := []
          capital := st.capital + (st.positions.map (pnlOf cfg price)).sum
          trade_history := st.trade_history ++ st.positions.map (closeRec cfg price ts) }
       let tf : ℚ := st.positions.length * (cfg.fee_per_trade * cfg.contract_value)
       (if 0 < tf then
          { base with trade_history := base.trade_history ++
              [⟨ts, .TOTAL_FEE, price, 0, 0, tf⟩] }
        else base,
        (st.positions.map (pnlOf cfg price)).sum)) := by
  unfold close_all_positions
  rw [closeAllLoop_spec cfg price ts st.positions st 0 0 rfl]
  simp

/-- Number of records of a given kind in a trade history. -/
def countKind (k : TradeKind) (h : List TradeRec) : ℕ :=
  h.countP (fun r => decide (r.kind = k))

theorem countKind_append (k : TradeKind) (h1 h2 : List TradeRec) :
    countKind k (h1 ++ h2) = countKind k h1 + countKind k h2 := by
  simp [countKind, List.countP_append]

theorem closeKind_ne_total_fee (s : Side) : closeKind s ≠ TradeKind.TOTAL_FEE := by
  cases s <;> simp [closeKind]

theorem countKind_closeRecs (cfg : Config) (price : ℚ) (ts : Timestamp)
    (l : List Pos) :
    countKind TradeKind.TOTAL_FEE (l.map (closeRec cfg price ts)) = 0 := by
  simp only [countKind, List.countP_map]
  apply List.countP_eq_zero.2
  intro p _
  simp [Function.comp, closeRec, closeKind_ne_total_fee]

/-- **C10**: `close_all_positions` empties the ledger, credits the
capital by exactly the returned total profit, that total is the sum over
the previously open positions of the side-signed price differential
times size times contract value minus the flat per-position fee, and
(when the per-trade fee value is positive, as in the default
configuration) a `TOTAL_FEE` record is appended exactly when at least
one position was closed. -/
theorem close_all_positions_post (cfg : Config) (price : ℚ) (ts : Timestamp)
    (st : St) (hfee : 0 < cfg.fee_per_trade * cfg.contract_value) :
    (close_all_positions cfg price ts st).1.positions = [] ∧
    (close_all_positions cfg price ts st).1.capital =
      st.capital + (close_all_positions cfg price ts st).2 ∧
    (close_all_positions cfg price ts st).2 =
      (st.positions.map (pnlOf cfg price)).sum ∧
    countKind TradeKind.TOTAL_FEE (close_all_positions cfg price ts st).1.trade_history =
      countKind TradeKind.TOTAL_FEE st.trade_history +
        (if st.positions = [] then 0 else 1) := by
  rw [close_all_spec]
  simp only []
  by_cases hp : st.positions = []
  · simp [hp]
  · have hlen : 0 < (st.positions.length : ℚ) := by
      have := List.length_pos.2 hp
      exact_mod_cast this
    have htf : 0 < (st.positions.length : ℚ) * (cfg.fee_per_trade * cfg.contract_value) :=
      mul_pos hlen hfee
    simp [hp, htf, countKind_append, countKind_closeRecs, countKind]
    intro p _
    simp [closeRec, closeKind_ne_total_fee]

/-- Witness state for the `close_all_positions` postcondition. -/
def stC10 : St :=
  { capital := 0, positions := [Pos.mk Side.buy 100 1], trades := [],
    last_date := 0, daily_fee := 0, trade_history := [], last_valid_atr := 1,
    daily_atr := none, current_pivot := 100, grid_size := none, size := 0,
    equity := [] }

/-- Witness for **C10** at the default configuration and a one-position
ledger. -/
theorem close_all_positions_post_witness :
    0 < defaultConfig.fee_per_trade * defaultConfig.contract_value ∧
    ((close_all_positions defaultConfig 99 ⟨0, 0⟩ stC10).1.positions = [] ∧
    (close_all_positions defaultConfig 99 ⟨0, 0⟩ stC10).1.capital =
      stC10.capital + (close_all_positions defaultConfig 99 ⟨0, 0⟩ stC10).2 ∧
    (close_all_positions defaultConfig 99 ⟨0, 0⟩ stC10).2 =
      (stC10.positions.map (pnlOf defaultConfig 99)).sum ∧
    countKind TradeKind.TOTAL_FEE
        (close_all_positions defaultConfig 99 ⟨0, 0⟩ stC10).1.trade_history =
      countKind TradeKind.TOTAL_FEE stC10.trade_history +
        (if stC10.positions = [] then 0 else 1)) :=
  ⟨by norm_num [defaultConfig],
   close_all_positions_post defaultConfig 99 ⟨0, 0⟩ stC10
     (by norm_num [defaultConfig])⟩

/-- The valid (non-NaN) absolute differences among the last `window`
entries of the difference series, as used by window-mode
`calculate_atr`. -/
def validDiffs (prices : List ℚ) (window : ℕ) : List ℚ :=
  ((diffAbs prices).drop ((diffAbs prices).length - window)).filterMap id

/-- Statement of claim C6's fallback rule, following the claim's words:
window-mode ATR is the mean of the valid absolute differences, falling
back to `last_valid_atr` exactly when fewer than ⌈window/2⌉ valid
differences exist or the mean is undefined. -/
def atr_window_claimed (prices : List ℚ) (window : ℕ) (lva : ℚ) : ℚ :=
  let valid := validDiffs prices window
  if valid.length < (window + 1) / 2 ∨ valid.length = 0 then lva
  else valid.sum / (valid.length : ℚ)

/-- The actual fallback rule of the source, with the Python floor
division `window // 2`. -/
def atr_window_floor (prices : List ℚ) (window : ℕ) (lva : ℚ) : ℚ :=
  let valid := validDiffs prices window
  if valid.length < window / 2 ∨ valid.length = 0 then lva
  else valid.sum / (valid.length : ℚ)

/-- **C6 counterexample**: for `window = 5` and prices `[1, 2, 4]` there
are 2 valid differences; the claim's ⌈5/2⌉ = 3 threshold demands the
fallback `99`, but the source's `5 // 2 = 2` threshold accepts the mean
`3/2`. -/
theorem atr_window_ceil_claim_false :
    calculate_atr_window [1, 2, 4] 5 99 = 3/2 ∧
    atr_window_claimed [1, 2, 4] 5 99 = 99 ∧
    calculate_atr_window [1, 2, 4] 5 99 ≠ atr_window_claimed [1, 2, 4] 5 99 := by
  refine ⟨?_, ?_, ?_⟩ <;>
    · simp only [calculate_atr_window, atr_window_claimed, validDiffs, diffAbs,
        List.zipWith, List.filterMap_cons, List.filterMap_nil, List.length_cons,
        List.length_nil, List.drop, List.length, id]
      norm_num

/-- **C6 amended**: window-mode ATR equals the mean of the valid
absolute tick-to-tick differences among the most recent `window`
entries of the difference series, and falls back to `last_valid_atr`
exactly when fewer than ⌊window/2⌋ valid differences exist or the mean
is undefined (no valid difference at all). -/
theorem calculate_atr_window_eq_floor_rule (prices : List ℚ) (window : ℕ)
    (lva : ℚ) :
    calculate_atr_window prices window lva = atr_window_floor prices window lva := by
  unfold calculate_atr_window atr_window_floor validDiffs
  simp only []
  split
  · rename_i h
    rw [if_neg]
    omega
  · rename_i h
    rw [if_pos]
    omega

/-! ### Ledger counting lemmas -/

theorem countBuys_append (l1 l2 : List Pos) :
    countBuys (l1 ++ l2) = countBuys l1 + countBuys l2 := by
  simp [countBuys, List.filter_append]

theorem countSells_append (l1 l2 : List Pos) :
    countSells (l1 ++ l2) = countSells l1 + countSells l2 := by
  simp [countSells, List.filter_append]

theorem length_eq_countBuys_add_countSells (l : List Pos) :
    l.length = countBuys l + countSells l := by
  induction l with
  | nil => rfl
  | cons p rest ih =>
    rcases hs : p.side with _ | _ <;>
      simp [countBuys, countSells, List.filter_cons, hs] at ih ⊢ <;>
      omega

theorem countBuys_erase_le (l : List Pos) (a : Pos) :
    countBuys (l.erase a) ≤ countBuys l := by
  exact List.Sublist.length_le (List.Sublist.filter _ (List.erase_sublist a l))

theorem countSells_erase_le (l : List Pos) (a : Pos) :
    countSells (l.erase a) ≤ countSells l := by
  exact List.Sublist.length_le (List.Sublist.filter _ (List.erase_sublist a l))

theorem countBuys_erase_of_sell (l : List Pos) (a : Pos)
    (ha : a.side = Side.sell) : countBuys (l.erase a) = countBuys l := by
  induction l with
  | nil => rfl
  | cons b bs ih =>
    rw [List.erase_cons]
    by_cases hb : b = a
    · subst hb
      simp [countBuys, List.filter_cons, ha]
    · simp only [beq_iff_eq]
      rw [if_neg hb]
      simp only [countBuys, List.filter_cons] at ih ⊢
      rcases hbs : b.side <;> simp [hbs, ih]

theorem countSells_erase_of_buy (l : List Pos) (a : Pos)
    (ha : a.side = Side.buy) : countSells (l.erase a) = countSells l := by
  induction l with
  | nil => rfl
  | cons b bs ih =>
    rw [List.erase_cons]
    by_cases hb : b = a
    · subst hb
      simp [countSells, List.filter_cons, ha]
    · simp only [beq_iff_eq]
      rw [if_neg hb]
      simp only [countSells, List.filter_cons] at ih ⊢
      rcases hbs : b.side <;> simp [hbs, ih]

theorem countSells_erase_of_sell_mem (l : List Pos) (a : Pos)
    (ha : a.side = Side.sell) (hm : a ∈ l) :
    countSells (l.erase a) + 1 = countSells l := by
  induction l with
  | nil => cases hm
  | cons b bs ih =>
    rw [List.erase_cons]
    by_cases hb : b = a
    · subst hb
      simp [countSells, List.filter_cons, ha]
    · have hm' : a ∈ bs := by
        rcases List.mem_cons.mp hm with h | h
        · exact absurd h.symm hb
        · exact h
      simp only [beq_iff_eq]
      rw [if_neg hb]
      simp only [countSells, List.filter_cons] at ih ⊢
      rcases hbs : b.side <;> simp [hbs, ih hm']

theorem countBuys_erase_of_buy_mem (l : List Pos) (a : Pos)
    (ha : a.side = Side.buy) (hm : a ∈ l) :
    countBuys (l.erase a) + 1 = countBuys l := by
  induction l with
  | nil => cases hm
  | cons b bs ih =>
    rw [List.erase_cons]
    by_cases hb : b = a
    · subst hb
      simp [countBuys, List.filter_cons, ha]
    · have hm' : a ∈ bs := by
        rcases List.mem_cons.mp hm with h | h
        · exact absurd h.symm hb
        · exact h
      simp only [beq_iff_eq]
      rw [if_neg hb]
      simp only [countBuys, List.filter_cons] at ih ⊢
      rcases hbs : b.side <;> simp [hbs, ih hm']

theorem countBuys_cons_buy (l : List Pos) (p : Pos) (hp : p.side = Side.buy) :
    countBuys (l ++ [p]) = countBuys l + 1 := by
  simp [countBuys_append, countBuys, List.filter_cons, hp]

theorem countSells_cons_buy (l : List Pos) (p : Pos) (hp : p.side = Side.buy) :
    countSells (l ++ [p]) = countSells l := by
  simp [countSells_append, countSells, List.filter_cons, hp]

theorem countSells_cons_sell (l : List Pos) (p : Pos) (hp : p.side = Side.sell) :
    countSells (l ++ [p]) = countSells l + 1 := by
  simp [countSells_append, countSells, List.filter_cons, hp]

theorem countBuys_cons_sell (l : List Pos) (p : Pos) (hp : p.side = Side.sell) :
    countBuys (l ++ [p]) = countBuys l := by
  simp [countBuys_append, countBuys, List.filter_cons, hp]

theorem mem_and_side_of_filter_head {l : List Pos} {s : Side} {p : Pos}
    {rest : List Pos}
    (h : l.filter (fun q => q.side = s) = p :: rest) :
    p ∈ l ∧ p.side = s := by
  have hp : p ∈ l.filter (fun q => q.side = s) := by
    rw [h]; exact List.mem_cons_self p rest
  refine ⟨List.mem_of_mem_filter hp, ?_⟩
  have := List.of_mem_filter hp
  simpa using this


/-- The BUY half keeps the `num_buys` / `num_sells` counters equal to
the actual per-side ledger counts and under the cap of 6. -/
theorem entryBuyCheck_counts (cfg : Config) (price : ℚ) (ts : Timestamp)
    (gs size buy_level : ℚ) (st : St) (nb nsl : ℕ)
    (hb : nb = countBuys st.positions) (hs : nsl = countSells st.positions)
    (hb6 : nb ≤ 6) (hs6 : nsl ≤ 6) :
    (entryBuyCheck cfg price ts gs size buy_level st nb nsl).2.1 =
      countBuys (entryBuyCheck cfg price ts gs size buy_level st nb nsl).1.positions ∧
    (entryBuyCheck cfg price ts gs size buy_level st nb nsl).2.2.1 =
      countSells (entryBuyCheck cfg price ts gs size buy_level st nb nsl).1.positions ∧
    (entryBuyCheck cfg price ts gs size buy_level st nb nsl).2.1 ≤ 6 ∧
    (entryBuyCheck cfg price ts gs size buy_level st nb nsl).2.2.1 ≤ 6 := by
  simp only [entryBuyCheck]
  split
  · rename_i hcond
    split
    · rename_i sp tail hfs
      obtain ⟨hmem, hside⟩ := mem_and_side_of_filter_head hfs
      have hne : Pos.mk Side.buy price size ≠ sp := by
        intro h
        rw [← h] at hside
        simp at hside
      have hmemb : Pos.mk Side.buy price size ∈
          st.positions ++ [Pos.mk Side.buy price size] := by
        simp
      have hb1 : countBuys (st.positions ++ [Pos.mk Side.buy price size]) =
          countBuys st.positions + 1 := countBuys_cons_buy _ _ rfl
      have hs1 : countSells (st.positions ++ [Pos.mk Side.buy price size]) =
          countSells st.positions := countSells_cons_buy _ _ rfl
      have h1 : countBuys ((st.positions ++ [Pos.mk Side.buy price size]).erase sp) =
          countBuys (st.positions ++ [Pos.mk Side.buy price size]) :=
        countBuys_erase_of_sell _ _ hside
      have h2 : Pos.mk Side.buy price size ∈
          (st.positions ++ [Pos.mk Side.buy price size]).erase sp :=
        (List.mem_erase_of_ne hne).2 hmemb
      have h3 : countBuys (((st.positions ++ [Pos.mk Side.buy price size]).erase sp).erase
            (Pos.mk Side.buy price size)) + 1 =
          countBuys ((st.positions ++ [Pos.mk Side.buy price size]).erase sp) :=
        countBuys_erase_of_buy_mem _ _ rfl h2
      have h4 : countSells ((st.positions ++ [Pos.mk Side.buy price size]).erase sp) + 1 =
          countSells (st.positions ++ [Pos.mk Side.buy price size]) :=
        countSells_erase_of_sell_mem _ _ hside hmem
      have h5 : countSells (((st.positions ++ [Pos.mk Side.buy price size]).erase sp).erase
            (Pos.mk Side.buy price size)) =
          countSells ((st.positions ++ [Pos.mk Side.buy price size]).erase sp) :=
        countSells_erase_of_buy _ _ rfl
      have hnsl : countSells (st.positions ++ [Pos.mk Side.buy price size]) =
          tail.length + 1 := by
        unfold countSells
        rw [hfs]
        rfl
      simp only []
      refine ⟨?_, ?_, ?_, ?_⟩ <;> omega
    · rename_i hfs
      simp only []
      have hb1 : countBuys (st.positions ++ [Pos.mk Side.buy price size]) =
          countBuys st.positions + 1 := countBuys_cons_buy _ _ rfl
      have hs1 : countSells (st.positions ++ [Pos.mk Side.buy price size]) =
          countSells st.positions := countSells_cons_buy _ _ rfl
      rename_i hcond2
      refine ⟨by omega, by omega, by omega, by omega⟩
  · exact ⟨hb, hs, hb6, hs6⟩

/-- The SELL half keeps the counters equal to the per-side ledger counts
and under the cap of 6. -/
theorem entrySellCheck_counts (cfg : Config) (price : ℚ) (ts : Timestamp)
    (gs size sell_level : ℚ) (st : St) (nb nsl : ℕ)
    (hb : nb = countBuys st.positions) (hs : nsl = countSells st.positions)
    (hb6 : nb ≤ 6) (hs6 : nsl ≤ 6) :
    (entrySellCheck cfg price ts gs size sell_level st nb nsl).2.1 =
      countBuys (entrySellCheck cfg price ts gs size sell_level st nb nsl).1.positions ∧
    (entrySellCheck cfg price ts gs size sell_level st nb nsl).2.2 =
      countSells (entrySellCheck cfg price ts gs size sell_level st nb nsl).1.positions ∧
    (entrySellCheck cfg price ts gs size sell_level st nb nsl).2.1 ≤ 6 ∧
    (entrySellCheck cfg price ts gs size sell_level st nb nsl).2.2 ≤ 6 := by
  simp only [entrySellCheck]
  split
  · rename_i hcond
    split
    · rename_i bp tail hfs
      obtain ⟨hmem, hside⟩ := mem_and_side_of_filter_head hfs
      have hne : Pos.mk Side.sell price size ≠ bp := by
        intro h
        rw [← h] at hside
        simp at hside
      have hmems : Pos.mk Side.sell price size ∈
          st.positions ++ [Pos.mk Side.sell price size] := by
        simp
      have hb1 : countSells (st.positions ++ [Pos.mk Side.sell price size]) =
          countSells st.positions + 1 := countSells_cons_sell _ _ rfl
      have hs1 : countBuys (st.positions ++ [Pos.mk Side.sell price size]) =
          countBuys st.positions := countBuys_cons_sell _ _ rfl
      have h1 : countSells ((st.positions ++ [Pos.mk Side.sell price size]).erase bp) =
          countSells (st.positions ++ [Pos.mk Side.sell price size]) :=
        countSells_erase_of_buy _ _ hside
      have h2 : Pos.mk Side.sell price size ∈
          (st.positions ++ [Pos.mk Side.sell price size]).erase bp :=
        (List.mem_erase_of_ne hne).2 hmems
      have h3 : countSells (((st.positions ++ [Pos.mk Side.sell price size]).erase bp).erase
            (Pos.mk Side.sell price size)) + 1 =
          countSells ((st.positions ++ [Pos.mk Side.sell price size]).erase bp) :=
        countSells_erase_of_sell_mem _ _ rfl h2
      have h4 : countBuys ((st.positions ++ [Pos.mk Side.sell price size]).erase bp) + 1 =
          countBuys (st.positions ++ [Pos.mk Side.sell price size]) :=
        countBuys_erase_of_buy_mem _ _ hside hmem
      have h5 : countBuys (((st.positions ++ [Pos.mk Side.sell price size]).erase bp).erase
            (Pos.mk Side.sell price size)) =
          countBuys ((st.positions ++ [Pos.mk Side.sell price size]).erase bp) :=
        countBuys_erase_of_sell _ _ rfl
      have hnb : countBuys (st.positions ++ [Pos.mk Side.sell price size]) =
          tail.length + 1 := by
        unfold countBuys
        rw [hfs]
        rfl
      simp only []
      refine ⟨?_, ?_, ?_, ?_⟩ <;> omega
    · rename_i hfs
      simp only []
      have hb1 : countSells (st.positions ++ [Pos.mk Side.sell price size]) =
          countSells st.positions + 1 := countSells_cons_sell _ _ rfl
      have hs1 : countBuys (st.positions ++ [Pos.mk Side.sell price size]) =
          countBuys st.positions := countBuys_cons_sell _ _ rfl
      rename_i hcond2
      refine ⟨by omega, by omega, by omega, by omega⟩
  · exact ⟨hb, hs, hb6, hs6⟩

/-- **Ledger caps through the new-entry loop**: starting from counters
that match the ledger and respect the caps, the loop keeps both
per-side counts at 6 or below. -/
theorem entryLoop_counts (cfg : Config) (price : ℚ) (ts : Timestamp)
    (gs size : ℚ) :
    ∀ (ns : List ℕ) (nb nsl : ℕ) (st : St),
      nb = countBuys st.positions → nsl = countSells st.positions →
      nb ≤ 6 → nsl ≤ 6 →
      countBuys (entryLoop cfg price ts gs size ns nb nsl st).positions ≤ 6 ∧
      countSells (entryLoop cfg price ts gs size ns nb nsl st).positions ≤ 6 := by
  intro ns
  induction ns with
  | nil =>
    intro nb nsl st hb hs hb6 hs6
    simp only [entryLoop]
    omega
  | cons n rest ih =>
    intro nb nsl st hb hs hb6 hs6
    simp only [entryLoop]
    obtain ⟨b1, b2, b3, b4⟩ := entryBuyCheck_counts cfg price ts gs size
      (round1 (st.current_pivot - ((n : ℚ) - 1/2) * gs)) st nb nsl hb hs hb6 hs6
    split
    · exact ih _ _ _ b1 b2 b3 b4
    · obtain ⟨s1, s2, s3, s4⟩ := entrySellCheck_counts cfg price ts gs size
        (round1 (st.current_pivot + ((n : ℚ) - 1/2) * gs)) _ _ _ b1 b2 b3 b4
      exact ih _ _ _ s1 s2 s3 s4

/-! ### Capital accounting -/

/-- The capital delta that a trade-history record accounts for: closes
log their (fee-net) realized profit in the `profit` column; an
`OVERNIGHT_FEE` record carries its charge in the `fee` column with zero
profit; `BUY`/`SELL` opens and the `TOTAL_FEE` summaries carry zero. -/
def recDelta (r : TradeRec) : ℚ :=
  r.profit - (if r.kind = TradeKind.OVERNIGHT_FEE then r.fee else 0)

/-- Sum of the capital deltas recorded in a trade history. -/
def histSum (h : List TradeRec) : ℚ := (h.map recDelta).sum

/-- Capital not explained by the trade history; the run invariant is
that this stays at the initial capital. -/
def capResidual (st : St) : ℚ := st.capital - histSum st.trade_history

theorem histSum_append (h1 h2 : List TradeRec) :
    histSum (h1 ++ h2) = histSum h1 + histSum h2 := by
  simp [histSum]

theorem recDelta_closeRec (cfg : Config) (price : ℚ) (ts : Timestamp)
    (p : Pos) : recDelta (closeRec cfg price ts p) = pnlOf cfg price p := by
  cases hp : p.side <;> simp [recDelta, closeRec, closeKind, hp]

/-- Frame and accounting facts for `close_all_positions`: the ledger is
emptied, the history grows, the recorded deltas absorb the capital
change, and all unrelated state fields are untouched. -/
theorem close_all_frame (cfg : Config) (price : ℚ) (ts : Timestamp) (st : St) :
    (close_all_positions cfg price ts st).1.positions = [] ∧
    capResidual (close_all_positions cfg price ts st).1 = capResidual st ∧
    (close_all_positions cfg price ts st).1.daily_atr = st.daily_atr ∧
    (close_all_positions cfg price ts st).1.daily_fee = st.daily_fee ∧
    (close_all_positions cfg price ts st).1.last_date = st.last_date ∧
    (close_all_positions cfg price ts st).1.equity = st.equity ∧
    (close_all_positions cfg price ts st).1.grid_size = st.grid_size ∧
    (close_all_positions cfg price ts st).1.size = st.size ∧
    (close_all_positions cfg price ts st).1.trades = st.trades ∧
    (close_all_positions cfg price ts st).1.current_pivot = st.current_pivot ∧
    (close_all_positions cfg price ts st).1.last_valid_atr = st.last_valid_atr := by
  rw [close_all_spec]
  have hfun : recDelta ∘ closeRec cfg price ts = pnlOf cfg price :=
    funext (recDelta_closeRec cfg price ts)
  simp only []
  split <;>
    simp [capResidual, histSum_append, histSum, recDelta, hfun]

/-- Frame and accounting facts for `calculate_grid`: only
`last_valid_atr` changes in the state. -/
theorem calculate_grid_frame (cfg : Config) (price atr : ℚ) (pv : List ℚ)
    (i : ℕ) (st : St) :
    (calculate_grid cfg price atr pv i st).2.2 =
      { st with last_valid_atr := atr } := by
  rfl

/-- Frame facts for `apply_overnight_fee`: only capital and history
change, and the recorded delta absorbs the charge. -/
theorem apply_overnight_fee_frame (ts : Timestamp) (st : St) :
    (apply_overnight_fee ts st).positions = st.positions ∧
    capResidual (apply_overnight_fee ts st) = capResidual st ∧
    (apply_overnight_fee ts st).daily_atr = st.daily_atr ∧
    (apply_overnight_fee ts st).daily_fee = st.daily_fee ∧
    (apply_overnight_fee ts st).last_date = st.last_date ∧
    (apply_overnight_fee ts st).equity = st.equity ∧
    (apply_overnight_fee ts st).grid_size = st.grid_size ∧
    (apply_overnight_fee ts st).size = st.size ∧
    (apply_overnight_fee ts st).trades = st.trades ∧
    (apply_overnight_fee ts st).current_pivot = st.current_pivot ∧
    (apply_overnight_fee ts st).last_valid_atr = st.last_valid_atr := by
  unfold apply_overnight_fee
  split
  · simp
  · simp [capResidual, histSum_append, histSum, recDelta]
    ring

/-- Frame, accounting, ledger-count and pivot facts for the
take-profit / max-loss loop. -/
theorem tpLossLoop_facts (cfg : Config) (pvals : List ℚ) (i : ℕ) (price : ℚ)
    (ts : Timestamp) (tp ml : ℚ) :
    ∀ (snap : List Pos) (st : St) (gs size : ℚ),
      (tpLossLoop cfg pvals i price ts tp ml snap st gs size).1.daily_atr = st.daily_atr ∧
      (tpLossLoop cfg pvals i price ts tp ml snap st gs size).1.daily_fee = st.daily_fee ∧
      (tpLossLoop cfg pvals i price ts tp ml snap st gs size).1.last_date = st.last_date ∧
      (tpLossLoop cfg pvals i price ts tp ml snap st gs size).1.equity = st.equity ∧
      (tpLossLoop cfg pvals i price ts tp ml snap st gs size).1.grid_size = st.grid_size ∧
      (tpLossLoop cfg pvals i price ts tp ml snap st gs size).1.size = st.size ∧
      (tpLossLoop cfg pvals i price ts tp ml snap st gs size).1.trades = st.trades ∧
      capResidual (tpLossLoop cfg pvals i price ts tp ml snap st gs size).1 =
        capResidual st ∧
      countBuys (tpLossLoop cfg pvals i price ts tp ml snap st gs size).1.positions ≤
        countBuys st.positions ∧
      countSells (tpLossLoop cfg pvals i price ts tp ml snap st gs size).1.positions ≤
        countSells st.positions ∧
      ((tpLossLoop cfg pvals i price ts tp ml snap st gs size).2.2.2 = true →
        (tpLossLoop cfg pvals i price ts tp ml snap st gs size).1.current_pivot = price ∧
        (tpLossLoop cfg pvals i price ts tp ml snap st gs size).1.positions = []) ∧
      ((tpLossLoop cfg pvals i price ts tp ml snap st gs size).2.2.2 = false →
        (tpLossLoop cfg pvals i price ts tp ml snap st gs size).1.current_pivot =
          st.current_pivot) := by
  intro snap
  induction snap with
  | nil =>
    intro st gs size
    simp [tpLossLoop]
  | cons pos rest ih =>
    intro st gs size
    have hml : ∀ (st1 : St),
        let st2 := { (close_all_positions cfg price ts st1).1 with
          current_pivot := price }
        let ca := calculate_atr_window (pvals.take (i + 1)) short_atr_window
          st2.last_valid_atr
        ((calculate_grid cfg price ca pvals i st2).2.2.daily_atr = st1.daily_atr ∧
         (calculate_grid cfg price ca pvals i st2).2.2.daily_fee = st1.daily_fee ∧
         (calculate_grid cfg price ca pvals i st2).2.2.last_date = st1.last_date ∧
         (calculate_grid cfg price ca pvals i st2).2.2.equity = st1.equity ∧
         (calculate_grid cfg price ca pvals i st2).2.2.grid_size = st1.grid_size ∧
         (calculate_grid cfg price ca pvals i st2).2.2.size = st1.size ∧
         (calculate_grid cfg price ca pvals i st2).2.2.trades = st1.trades ∧
         capResidual (calculate_grid cfg price ca pvals i st2).2.2 = capResidual st1 ∧
         (calculate_grid cfg price ca pvals i st2).2.2.current_pivot = price ∧
         (calculate_grid cfg price ca pvals i st2).2.2.positions = []) := by
      intro st1
      obtain ⟨c1, c2, c3, c4, c5, c6, c7, c8, c9, c10, c11⟩ :=
        close_all_frame cfg price ts st1
      simp only [calculate_grid_frame]
      simp only [capResidual] at c2 ⊢
      simp [c1, c2, c3, c4, c5, c6, c7, c8, c9, c10, c11]
    have chain : ∀ st' : St,
        (st'.daily_atr = st.daily_atr ∧ st'.daily_fee = st.daily_fee ∧
         st'.last_date = st.last_date ∧ st'.equity = st.equity ∧
         st'.grid_size = st.grid_size ∧ st'.size = st.size ∧
         st'.trades = st.trades ∧ capResidual st' = capResidual st ∧
         countBuys st'.positions ≤ countBuys st.positions ∧
         countSells st'.positions ≤ countSells st.positions ∧
         st'.current_pivot = st.current_pivot) →
        ((tpLossLoop cfg pvals i price ts tp ml rest st' gs size).1.daily_atr = st.daily_atr ∧
         (tpLossLoop cfg pvals i price ts tp ml rest st' gs size).1.daily_fee = st.daily_fee ∧
         (tpLossLoop cfg pvals i price ts tp ml rest st' gs size).1.last_date = st.last_date ∧
         (tpLossLoop cfg pvals i price ts tp ml rest st' gs size).1.equity = st.equity ∧
         (tpLossLoop cfg pvals i price ts tp ml rest st' gs size).1.grid_size = st.grid_size ∧
         (tpLossLoop cfg pvals i price ts tp ml rest st' gs size).1.size = st.size ∧
         (tpLossLoop cfg pvals i price ts tp ml rest st' gs size).1.trades = st.trades ∧
         capResidual (tpLossLoop cfg pvals i price ts tp ml rest st' gs size).1 =
           capResidual st ∧
         countBuys (tpLossLoop cfg pvals i price ts tp ml rest st' gs size).1.positions ≤
           countBuys st.positions ∧
         countSells (tpLossLoop cfg pvals i price ts tp ml rest st' gs size).1.positions ≤
           countSells st.positions ∧
         ((tpLossLoop cfg pvals i price ts tp ml rest st' gs size).2.2.2 = true →
           (tpLossLoop cfg pvals i price ts tp ml rest st' gs size).1.current_pivot = price ∧
           (tpLossLoop cfg pvals i price ts tp ml rest st' gs size).1.positions = []) ∧
         ((tpLossLoop cfg pvals i price ts tp ml rest st' gs size).2.2.2 = false →
           (tpLossLoop cfg pvals i price ts tp ml rest st' gs size).1.current_pivot =
             st.current_pivot)) := by
      intro st' hf
      obtain ⟨f1, f2, f3, f4, f5, f6, f7, f8, f9, f10, f11⟩ := hf
      obtain ⟨i1, i2, i3, i4, i5, i6, i7, i8, i9, i10, i11, i12⟩ := ih st' gs size
      exact ⟨i1.trans f1, i2.trans f2, i3.trans f3, i4.trans f4, i5.trans f5,
        i6.trans f6, i7.trans f7, i8.trans f8, le_trans i9 f9, le_trans i10 f10,
        i11, fun h => (i12 h).trans f11⟩
    simp only [tpLossLoop]
    split
    · split
      · apply chain
        refine ⟨rfl, rfl, rfl, rfl, rfl, rfl, rfl, ?_, ?_, ?_, rfl⟩
        · simp [capResidual, histSum_append, histSum, recDelta]
        · exact countBuys_erase_le _ _
        · exact countSells_erase_le _ _
      · split <;> split
        · obtain ⟨m1, m2, m3, m4, m5, m6, m7, m8, m9, m10⟩ := hml st
          exact ⟨m1, m2, m3, m4, m5, m6, m7, m8,
            by simp [m10, countBuys], by simp [m10, countSells],
            fun _ => ⟨m9, m10⟩, fun h => by simp at h⟩
        · apply chain
          exact ⟨rfl, rfl, rfl, rfl, rfl, rfl, rfl, rfl, le_refl _, le_refl _, rfl⟩
        · obtain ⟨m1, m2, m3, m4, m5, m6, m7, m8, m9, m10⟩ := hml st
          exact ⟨m1, m2, m3, m4, m5, m6, m7, m8,
            by simp [m10, countBuys], by simp [m10, countSells],
            fun _ => ⟨m9, m10⟩, fun h => by simp at h⟩
        · apply chain
          exact ⟨rfl, rfl, rfl, rfl, rfl, rfl, rfl, rfl, le_refl _, le_refl _, rfl⟩
    · split
      · apply chain
        refine ⟨rfl, rfl, rfl, rfl, rfl, rfl, rfl, ?_, ?_, ?_, rfl⟩
        · simp [capResidual, histSum_append, histSum, recDelta]
        · exact countBuys_erase_le _ _
        · exact countSells_erase_le _ _
      · split <;> split
        · obtain ⟨m1, m2, m3, m4, m5, m6, m7, m8, m9, m10⟩ := hml st
          exact ⟨m1, m2, m3, m4, m5, m6, m7, m8,
            by simp [m10, countBuys], by simp [m10, countSells],
            fun _ => ⟨m9, m10⟩, fun h => by simp at h⟩
        · apply chain
          exact ⟨rfl, rfl, rfl, rfl, rfl, rfl, rfl, rfl, le_refl _, le_refl _, rfl⟩
        · obtain ⟨m1, m2, m3, m4, m5, m6, m7, m8, m9, m10⟩ := hml st
          exact ⟨m1, m2, m3, m4, m5, m6, m7, m8,
            by simp [m10, countBuys], by simp [m10, countSells],
            fun _ => ⟨m9, m10⟩, fun h => by simp at h⟩
        · apply chain
          exact ⟨rfl, rfl, rfl, rfl, rfl, rfl, rfl, rfl, le_refl _, le_refl _, rfl⟩

/-- Frame and accounting facts for the BUY half of a grid level. -/
theorem entryBuyCheck_frame (cfg : Config) (price : ℚ) (ts : Timestamp)
    (gs size buy_level : ℚ) (st : St) (nb nsl : ℕ) :
    (entryBuyCheck cfg price ts gs size buy_level st nb nsl).1.daily_atr = st.daily_atr ∧
    (entryBuyCheck cfg price ts gs size buy_level st nb nsl).1.daily_fee = st.daily_fee ∧
    (entryBuyCheck cfg price ts gs size buy_level st nb nsl).1.last_date = st.last_date ∧
    (entryBuyCheck cfg price ts gs size buy_level st nb nsl).1.equity = st.equity ∧
    (entryBuyCheck cfg price ts gs size buy_level st nb nsl).1.grid_size = st.grid_size ∧
    (entryBuyCheck cfg price ts gs size buy_level st nb nsl).1.size = st.size ∧
    (entryBuyCheck cfg price ts gs size buy_level st nb nsl).1.current_pivot =
      st.current_pivot ∧
    (entryBuyCheck cfg price ts gs size buy_level st nb nsl).1.last_valid_atr =
      st.last_valid_atr ∧
    capResidual (entryBuyCheck cfg price ts gs size buy_level st nb nsl).1 =
      capResidual st := by
  simp only [entryBuyCheck]
  split
  · split
    · refine ⟨rfl, rfl, rfl, rfl, rfl, rfl, rfl, rfl, ?_⟩
      simp [capResidual, histSum_append, histSum, recDelta]
    · refine ⟨rfl, rfl, rfl, rfl, rfl, rfl, rfl, rfl, ?_⟩
      simp [capResidual, histSum_append, histSum, recDelta]
  · simp

/-- Frame and accounting facts for the SELL half of a grid level. -/
theorem entrySellCheck_frame (cfg : Config) (price : ℚ) (ts : Timestamp)
    (gs size sell_level : ℚ) (st : St) (nb nsl : ℕ) :
    (entrySellCheck cfg price ts gs size sell_level st nb nsl).1.daily_atr = st.daily_atr ∧
    (entrySellCheck cfg price ts gs size sell_level st nb nsl).1.daily_fee = st.daily_fee ∧
    (entrySellCheck cfg price ts gs size sell_level st nb nsl).1.last_date = st.last_date ∧
    (entrySellCheck cfg price ts gs size sell_level st nb nsl).1.equity = st.equity ∧
    (entrySellCheck cfg price ts gs size sell_level st nb nsl).1.grid_size = st.grid_size ∧
    (entrySellCheck cfg price ts gs size sell_level st nb nsl).1.size = st.size ∧
    (entrySellCheck cfg price ts gs size sell_level st nb nsl).1.current_pivot =
      st.current_pivot ∧
    (entrySellCheck cfg price ts gs size sell_level st nb nsl).1.last_valid_atr =
      st.last_valid_atr ∧
    capResidual (entrySellCheck cfg price ts gs size sell_level st nb nsl).1 =
      capResidual st := by
  simp only [entrySellCheck]
  split
  · split
    · refine ⟨rfl, rfl, rfl, rfl, rfl, rfl, rfl, rfl, ?_⟩
      simp [capResidual, histSum_append, histSum, recDelta]
    · refine ⟨rfl, rfl, rfl, rfl, rfl, rfl, rfl, rfl, ?_⟩
      simp [capResidual, histSum_append, histSum, recDelta]
  · simp

/-- Frame and accounting facts for the whole new-entry loop. -/
theorem entryLoop_frame (cfg : Config) (price : ℚ) (ts : Timestamp)
    (gs size : ℚ) :
    ∀ (ns : List ℕ) (nb nsl : ℕ) (st : St),
      (entryLoop cfg price ts gs size ns nb nsl st).daily_atr = st.daily_atr ∧
      (entryLoop cfg price ts gs size ns nb nsl st).daily_fee = st.daily_fee ∧
      (entryLoop cfg price ts gs size ns nb nsl st).last_date = st.last_date ∧
      (entryLoop cfg price ts gs size ns nb nsl st).equity = st.equity ∧
      (entryLoop cfg price ts gs size ns nb nsl st).grid_size = st.grid_size ∧
      (entryLoop cfg price ts gs size ns nb nsl st).size = st.size ∧
      (entryLoop cfg price ts gs size ns nb nsl st).current_pivot = st.current_pivot ∧
      (entryLoop cfg price ts gs size ns nb nsl st).last_valid_atr = st.last_valid_atr ∧
      capResidual (entryLoop cfg price ts gs size ns nb nsl st) = capResidual st := by
  intro ns
  induction ns with
  | nil =>
    intro nb nsl st
    simp [entryLoop]
  | cons n rest ih =>
    intro nb nsl st
    simp only [entryLoop]
    obtain ⟨b1, b2, b3, b4, b5, b6, b7, b8, b9⟩ := entryBuyCheck_frame cfg price
      ts gs size (round1 (st.current_pivot - ((n : ℚ) - 1/2) * gs)) st nb nsl
    split
    · obtain ⟨i1, i2, i3, i4, i5, i6, i7, i8, i9⟩ := ih _ _
        (entryBuyCheck cfg price ts gs size
          (round1 (st.current_pivot - ((n : ℚ) - 1/2) * gs)) st nb nsl).1
      exact ⟨i1.trans b1, i2.trans b2, i3.trans b3, i4.trans b4, i5.trans b5,
        i6.trans b6, i7.trans b7, i8.trans b8, i9.trans b9⟩
    · obtain ⟨s1, s2, s3, s4, s5, s6, s7, s8, s9⟩ := entrySellCheck_frame cfg
        price ts gs size (round1 (st.current_pivot + ((n : ℚ) - 1/2) * gs))
        (entryBuyCheck cfg price ts gs size
          (round1 (st.current_pivot - ((n : ℚ) - 1/2) * gs)) st nb nsl).1
        (entryBuyCheck cfg price ts gs size
          (round1 (st.current_pivot - ((n : ℚ) - 1/2) * gs)) st nb nsl).2.1
        (entryBuyCheck cfg price ts gs size
          (round1 (st.current_pivot - ((n : ℚ) - 1/2) * gs)) st nb nsl).2.2.1
      obtain ⟨i1, i2, i3, i4, i5, i6, i7, i8, i9⟩ := ih _ _ _
      exact ⟨i1.trans (s1.trans b1), i2.trans (s2.trans b2), i3.trans (s3.trans b3),
        i4.trans (s4.trans b4), i5.trans (s5.trans b5), i6.trans (s6.trans b6),
        i7.trans (s7.trans b7), i8.trans (s8.trans b8), i9.trans (s9.trans b9)⟩

/-- Characterization of the pivot-breach block: the branch fires exactly
when the price strictly leaves the `move_pivot` band; when it fires the
pivot is rebased to the triggering price over an emptied ledger (with
frame and accounting facts); otherwise the state is untouched. -/
theorem breachStep_facts (cfg : Config) (pvals : List ℚ) (i : ℕ) (price : ℚ)
    (ts : Timestamp) (st : St) (gs size : ℚ) :
    ((breachStep cfg pvals i price ts st gs size).2.2.2 = true ↔
      (price < st.current_pivot - cfg.move_pivot * gs ∨
       st.current_pivot + cfg.move_pivot * gs < price)) ∧
    ((breachStep cfg pvals i price ts st gs size).2.2.2 = true →
      (breachStep cfg pvals i price ts st gs size).1.current_pivot = price ∧
      (breachStep cfg pvals i price ts st gs size).1.positions = [] ∧
      (breachStep cfg pvals i price ts st gs size).1.daily_atr = st.daily_atr ∧
      (breachStep cfg pvals i price ts st gs size).1.daily_fee = st.daily_fee ∧
      (breachStep cfg pvals i price ts st gs size).1.last_date = st.last_date ∧
      (breachStep cfg pvals i price ts st gs size).1.equity = st.equity ∧
      (breachStep cfg pvals i price ts st gs size).1.grid_size = st.grid_size ∧
      (breachStep cfg pvals i price ts st gs size).1.size = st.size ∧
      (breachStep cfg pvals i price ts st gs size).1.trades = st.trades ∧
      capResidual (breachStep cfg pvals i price ts st gs size).1 = capResidual st) ∧
    ((breachStep cfg pvals i price ts st gs size).2.2.2 = false →
      (breachStep cfg pvals i price ts st gs size).1 = st) := by
  obtain ⟨c1, c2, c3, c4, c5, c6, c7, c8, c9, c10, c11⟩ :=
    close_all_frame cfg price ts st
  simp only [breachStep]
  split
  · rename_i hcond
    simp only [calculate_grid_frame]
    refine ⟨by simpa using hcond, fun _ => ?_, fun h => by simp at h⟩
    simp only [capResidual] at c2 ⊢
    simp [c1, c2, c3, c4, c5, c6, c7, c8, c9]
  · rename_i hcond
    refine ⟨by simpa using hcond, fun h => by simp at h, fun _ => rfl⟩

/-- Facts for `check_daily_fee` as invoked by `backtest` (always with
fee 0): the ledger, accounting and most fields are untouched, a zero
accumulator stays zero, and the gate then reports no breach. -/
theorem check_daily_fee_facts (ts : Timestamp) (st : St) :
    (check_daily_fee ts 0 st).2.positions = st.positions ∧
    capResidual (check_daily_fee ts 0 st).2 = capResidual st ∧
    (check_daily_fee ts 0 st).2.daily_atr = st.daily_atr ∧
    (check_daily_fee ts 0 st).2.equity = st.equity ∧
    (check_daily_fee ts 0 st).2.grid_size = st.grid_size ∧
    (check_daily_fee ts 0 st).2.size = st.size ∧
    (check_daily_fee ts 0 st).2.trades = st.trades ∧
    (check_daily_fee ts 0 st).2.current_pivot = st.current_pivot ∧
    (check_daily_fee ts 0 st).2.last_valid_atr = st.last_valid_atr ∧
    (st.daily_fee = 0 →
      (check_daily_fee ts 0 st).2.daily_fee = 0 ∧
      (check_daily_fee ts 0 st).1 = false) := by
  simp only [check_daily_fee]
  split <;>
    refine ⟨rfl, rfl, rfl, rfl, rfl, rfl, rfl, rfl, rfl, fun h0 => ⟨?_, ?_⟩⟩ <;>
    simp [capResidual, h0, daily_fee_limit]

/-- The combined per-tick invariant behind claims C2, C7 and C9: the
per-side caps, the zero daily-fee accumulator, and the capital being
fully explained by the trade history. -/
def Inv (cfg : Config) (st : St) : Prop :=
  countBuys st.positions ≤ 6 ∧ countSells st.positions ≤ 6 ∧
  st.daily_fee = 0 ∧ capResidual st = cfg.capital

/-- Frame facts for the new-entry block, and preservation of the
combined invariant. -/
theorem entryStep_facts (cfg : Config) (price : ℚ) (ts : Timestamp)
    (gs size : ℚ) (forced : Bool) (st : St) :
    (entryStep cfg price ts gs size forced st).daily_atr = st.daily_atr ∧
    (entryStep cfg price ts gs size forced st).equity = st.equity ∧
    (entryStep cfg price ts gs size forced st).grid_size = st.grid_size ∧
    (entryStep cfg price ts gs size forced st).size = st.size ∧
    (entryStep cfg price ts gs size forced st).current_pivot = st.current_pivot ∧
    (entryStep cfg price ts gs size forced st).last_valid_atr = st.last_valid_atr ∧
    (Inv cfg st → Inv cfg (entryStep cfg price ts gs size forced st)) := by
  obtain ⟨k1, k2, k3, k4, k5, k6, k7, k8, k9, k10⟩ := check_daily_fee_facts ts st
  simp only [entryStep]
  split
  · split
    · obtain ⟨e1, e2, e3, e4, e5, e6, e7, e8, e9⟩ := entryLoop_frame cfg price ts
        gs size [1, 2, 3, 4, 5, 6] (countBuys (check_daily_fee ts 0 st).2.positions)
        (countSells (check_daily_fee ts 0 st).2.positions) (check_daily_fee ts 0 st).2
      refine ⟨e1.trans k3, e4.trans k4, e5.trans k5, e6.trans k6, e7.trans k8,
        e8.trans k9, ?_⟩
      intro ⟨i1, i2, i3, i4⟩
      obtain ⟨c1, c2⟩ := k10 i3
      obtain ⟨b1, b2⟩ := entryLoop_counts cfg price ts gs size [1, 2, 3, 4, 5, 6]
        (countBuys (check_daily_fee ts 0 st).2.positions)
        (countSells (check_daily_fee ts 0 st).2.positions)
        (check_daily_fee ts 0 st).2 rfl rfl (by rw [k1]; exact i1) (by rw [k1]; exact i2)
      exact ⟨b1, b2, e2.trans c1, e9.trans (k2.trans i4)⟩
    · refine ⟨k3, k4, k5, k6, k8, k9, ?_⟩
      intro ⟨i1, i2, i3, i4⟩
      obtain ⟨c1, c2⟩ := k10 i3
      exact ⟨by rw [k1]; exact i1, by rw [k1]; exact i2, c1, k2.trans i4⟩
  · exact ⟨rfl, rfl, rfl, rfl, rfl, rfl, id⟩

theorem Inv_writeEquity (cfg : Config) (st : St) (i : ℕ) (v : ℚ) :
    Inv cfg (writeEquity st i v) ↔ Inv cfg st := by
  simp [Inv, writeEquity, countBuys, countSells, capResidual]

theorem Inv_update_grid (cfg : Config) (st : St) (g : Option ℚ) (sz : ℚ) :
    Inv cfg { st with grid_size := g, size := sz } ↔ Inv cfg st := by
  simp [Inv, countBuys, countSells, capResidual]

theorem Inv_close_all (cfg : Config) (price : ℚ) (ts : Timestamp) (st : St)
    (h : Inv cfg st) : Inv cfg (close_all_positions cfg price ts st).1 := by
  obtain ⟨c1, c2, c3, c4, c5, c6, c7, c8, c9, c10, c11⟩ :=
    close_all_frame cfg price ts st
  obtain ⟨h1, h2, h3, h4⟩ := h
  refine ⟨?_, ?_, ?_, ?_⟩
  · rw [c1]; simp [countBuys]
  · rw [c1]; simp [countSells]
  · rw [c4]; exact h3
  · rw [c2]; exact h4

/-- Preservation of the combined invariant through the tick tail. -/
theorem tickFinish_inv (cfg : Config) (ps : List Tick) (i : ℕ) (price : ℚ)
    (ts : Timestamp) (flags : TickFlags) (gs size : ℚ) (st : St) (st' : St)
    (f : TickFlags)
    (h : tickFinish cfg ps i price ts flags gs size st = some (st', f))
    (hI : Inv cfg st) : Inv cfg st' := by
  have hI2 : Inv cfg { writeEquity st i
      (st.capital + unrealized cfg price st.positions) with
      grid_size := some gs, size := size } :=
    (Inv_update_grid _ _ _ _).2 ((Inv_writeEquity _ _ _ _).2 hI)
  simp only [tickFinish] at h
  split at h
  · exact Option.noConfusion h
  · split at h
    · injection h with h2
      injection h2 with ha hb
      subst ha
      exact (Inv_writeEquity _ _ _ _).2 (Inv_close_all _ _ _ _ hI2)
    · injection h with h2
      injection h2 with ha hb
      subst ha
      exact hI2

theorem Inv_update_lva (cfg : Config) (st : St) (a : ℚ) :
    Inv cfg { st with last_valid_atr := a } ↔ Inv cfg st := by
  simp [Inv, countBuys, countSells, capResidual]

theorem Inv_breachStep (cfg : Config) (pvals : List ℚ) (i : ℕ) (price : ℚ)
    (ts : Timestamp) (st : St) (gs size : ℚ) (h : Inv cfg st) :
    Inv cfg (breachStep cfg pvals i price ts st gs size).1 := by
  obtain ⟨f1, f2, f3⟩ := breachStep_facts cfg pvals i price ts st gs size
  obtain ⟨h1, h2, h3, h4⟩ := h
  rcases hbf : (breachStep cfg pvals i price ts st gs size).2.2.2 with _ | _
  · rw [f3 hbf]
    exact ⟨h1, h2, h3, h4⟩
  · obtain ⟨g1, g2, g3, g4, g5, g6, g7, g8, g9, g10⟩ := f2 hbf
    refine ⟨?_, ?_, ?_, ?_⟩
    · rw [g2]; simp [countBuys]
    · rw [g2]; simp [countSells]
    · rw [g4]; exact h3
    · rw [g10]; exact h4

theorem Inv_tpLossLoop (cfg : Config) (pvals : List ℚ) (i : ℕ) (price : ℚ)
    (ts : Timestamp) (tp ml : ℚ) (snap : List Pos) (st : St) (gs size : ℚ)
    (h : Inv cfg st) :
    Inv cfg (tpLossLoop cfg pvals i price ts tp ml snap st gs size).1 := by
  obtain ⟨f1, f2, f3, f4, f5, f6, f7, f8, f9, f10, f11, f12⟩ :=
    tpLossLoop_facts cfg pvals i price ts tp ml snap st gs size
  obtain ⟨h1, h2, h3, h4⟩ := h
  exact ⟨le_trans f9 h1, le_trans f10 h2, f2.trans h3, f8.trans h4⟩

/-- Frame facts for the date-rollover step: everything except
`last_date`, capital and history is untouched, and the accounting
residual absorbs the overnight charge. -/
theorem overnightStep_facts (ts : Timestamp) (st : St) :
    (overnightStep ts st).positions = st.positions ∧
    capResidual (overnightStep ts st) = capResidual st ∧
    (overnightStep ts st).daily_atr = st.daily_atr ∧
    (overnightStep ts st).daily_fee = st.daily_fee ∧
    (overnightStep ts st).equity = st.equity ∧
    (overnightStep ts st).grid_size = st.grid_size ∧
    (overnightStep ts st).size = st.size ∧
    (overnightStep ts st).trades = st.trades ∧
    (overnightStep ts st).current_pivot = st.current_pivot ∧
    (overnightStep ts st).last_valid_atr = st.last_valid_atr := by
  obtain ⟨a1, a2, a3, a4, a5, a6, a7, a8, a9, a10, a11⟩ :=
    apply_overnight_fee_frame ts st
  simp only [overnightStep]
  split
  · exact ⟨a1, by simpa [capResidual] using a2, a3, a4, a6, a7, a8, a9, a10, a11⟩
  · simp

/-- Frame facts for the daily-ATR bootstrap: only `daily_atr` can
change. -/
theorem dailyAtrStep_facts (ps : List Tick) (ts : Timestamp) (st : St) :
    (dailyAtrStep ps ts st).positions = st.positions ∧
    (dailyAtrStep ps ts st).capital = st.capital ∧
    (dailyAtrStep ps ts st).trade_history = st.trade_history ∧
    (dailyAtrStep ps ts st).daily_fee = st.daily_fee ∧
    (dailyAtrStep ps ts st).last_date = st.last_date ∧
    (dailyAtrStep ps ts st).equity = st.equity ∧
    (dailyAtrStep ps ts st).grid_size = st.grid_size ∧
    (dailyAtrStep ps ts st).size = st.size ∧
    (dailyAtrStep ps ts st).trades = st.trades ∧
    (dailyAtrStep ps ts st).current_pivot = st.current_pivot ∧
    (dailyAtrStep ps ts st).last_valid_atr = st.last_valid_atr := by
  simp only [dailyAtrStep]
  split
  · split <;> simp
  · simp

theorem Inv_overnightStep (cfg : Config) (ts : Timestamp) (st : St)
    (h : Inv cfg st) : Inv cfg (overnightStep ts st) := by
  obtain ⟨a1, a2, a3, a4, a5, a6, a7, a8, a9, a10⟩ := overnightStep_facts ts st
  obtain ⟨h1, h2, h3, h4⟩ := h
  exact ⟨by rw [a1]; exact h1, by rw [a1]; exact h2, by rw [a4]; exact h3,
    by rw [a2]; exact h4⟩

theorem Inv_dailyAtrStep (cfg : Config) (ps : List Tick) (ts : Timestamp)
    (st : St) (h : Inv cfg st) : Inv cfg (dailyAtrStep ps ts st) := by
  obtain ⟨a1, a2, a3, a4, a5, a6, a7, a8, a9, a10, a11⟩ := dailyAtrStep_facts ps ts st
  obtain ⟨h1, h2, h3, h4⟩ := h
  exact ⟨by rw [a1]; exact h1, by rw [a1]; exact h2, by rw [a4]; exact h3,
    by simp only [capResidual, a2, a3]; exact h4⟩

/-- Preservation of the combined invariant through the trading path. -/
theorem tradingStep_inv (cfg : Config) (ps : List Tick) (i : ℕ) (price : ℚ)
    (ts : Timestamp) (st : St) (st' : St) (f : TickFlags)
    (h : tradingStep cfg ps i price ts st = some (st', f)) (hI : Inv cfg st) :
    Inv cfg st' := by
  have hMg : Inv cfg (match st.grid_size with
      | none => calculate_grid cfg price (currentAtrOf ts st)
          (ps.map (fun q : Tick => q.2)) i st
      | some g => (g, st.size, st)).2.2 := by
    rcases hgs : st.grid_size with _ | g
    · exact (Inv_update_lva _ _ _).2 hI
    · exact hI
  simp only [tradingStep] at h
  exact tickFinish_inv _ _ _ _ _ _ _ _ _ _ _ h
    ((entryStep_facts _ _ _ _ _ _ _).2.2.2.2.2.2
      (Inv_tpLossLoop _ _ _ _ _ _ _ _ _ _ _
        (Inv_breachStep _ _ _ _ _ _ _ _ hMg)))

/-- Preservation of the combined invariant through one loop iteration of
`backtest`. -/
theorem processTick_inv (cfg : Config) (ps : List Tick) (ldd : ℕ) (i : ℕ)
    (st : St) (st' : St) (f : TickFlags)
    (h : processTick cfg ps ldd i st = some (st', f)) (hI : Inv cfg st) :
    Inv cfg st' := by
  have hI1 : Inv cfg (dailyAtrStep ps (ps.getD i (⟨0, 0⟩, 0)).1
      (overnightStep (ps.getD i (⟨0, 0⟩, 0)).1 st)) :=
    Inv_dailyAtrStep _ _ _ _ (Inv_overnightStep _ _ _ hI)
  simp only [processTick] at h
  split at h
  · injection h with h2
    injection h2 with ha hb
    subst ha
    exact (Inv_writeEquity _ _ _ _).2 (Inv_close_all _ _ _ _ hI1)
  · split at h
    · injection h with h2
      injection h2 with ha hb
      subst ha
      exact hI1
    · split at h
      · injection h with h2
        injection h2 with ha hb
        subst ha
        exact (Inv_writeEquity _ _ _ _).2 hI1
      · exact tradingStep_inv _ _ _ _ _ _ _ _ h hI1

theorem runFrom_inv (cfg : Config) (ps : List Tick) (ldd : ℕ) :
    ∀ (l : List ℕ) (st st' : St), runFrom cfg ps ldd l st = some st' →
      Inv cfg st → Inv cfg st' := by
  intro l
  induction l with
  | nil =>
    intro st st' h hI
    simp only [runFrom, Option.some.injEq] at h
    rwa [← h]
  | cons i rest ih =>
    intro st st' h hI
    simp only [runFrom] at h
    rcases hp : processTick cfg ps ldd i st with _ | ⟨st1, fl⟩
    · rw [hp] at h
      exact Option.noConfusion h
    · rw [hp] at h
      exact ih _ _ h (processTick_inv _ _ _ _ _ _ _ hp hI)

theorem Inv_initState (cfg : Config) (t0 : Tick) (n : ℕ) :
    Inv cfg (initState cfg t0 n) := by
  simp [Inv, initState, countBuys, countSells, capResidual, histSum]

/-- The combined invariant holds in every state reached during a run. -/
theorem stateAfter_inv (cfg : Config) (ps : List Tick) (k : ℕ) (st : St)
    (h : stateAfter cfg ps k = some st) : Inv cfg st := by
  rcases ps with _ | ⟨t0, rest⟩
  · exact Option.noConfusion h
  · exact runFrom_inv _ _ _ _ _ _ h (Inv_initState cfg t0 _)

/-- Frame facts for the tick tail: the flags pass through unchanged, and
the pivot, daily-ATR, date and fee state are untouched. -/
theorem tickFinish_frame (cfg : Config) (ps : List Tick) (i : ℕ) (price : ℚ)
    (ts : Timestamp) (flags : TickFlags) (gs size : ℚ) (st : St) (st' : St)
    (f : TickFlags)
    (h : tickFinish cfg ps i price ts flags gs size st = some (st', f)) :
    f = flags ∧ st'.current_pivot = st.current_pivot ∧
    st'.daily_atr = st.daily_atr ∧ st'.last_date = st.last_date ∧
    st'.daily_fee = st.daily_fee := by
  simp only [tickFinish] at h
  split at h
  · exact Option.noConfusion h
  · split at h
    · obtain ⟨c1, c2, c3, c4, c5, c6, c7, c8, c9, c10, c11⟩ :=
        close_all_frame cfg price ts ({ writeEquity st i
          (st.capital + unrealized cfg price st.positions) with
          grid_size := some gs, size := size })
      injection h with h2
      injection h2 with ha hb
      subst ha
      exact ⟨hb.symm, by simpa [writeEquity] using c10,
        by simpa [writeEquity] using c3, by simpa [writeEquity] using c5,
        by simpa [writeEquity] using c4⟩
    · injection h with h2
      injection h2 with ha hb
      subst ha
      exact ⟨hb.symm, rfl, rfl, rfl, rfl⟩

/-- Pivot and flag tracking through the trading path: the returned
flags are exactly the breach-branch and max-loss-branch indicators, the
pivot ends at the tick price when either fired and is untouched
otherwise, and the daily ATR and fee accumulator are untouched. -/
theorem tradingStep_pivot (cfg : Config) (ps : List Tick) (i : ℕ) (price : ℚ)
    (ts : Timestamp) (st : St) (st' : St) (f : TickFlags)
    (h : tradingStep cfg ps i price ts st = some (st', f)) :
    (f.breach = true ∨ f.maxLoss = true → st'.current_pivot = price) ∧
    (f.breach = false ∧ f.maxLoss = false → st'.current_pivot = st.current_pivot) ∧
    st'.daily_atr = st.daily_atr := by
  have hMfacts : ∀ M : ℚ × ℚ × St, (match st.grid_size with
      | none => calculate_grid cfg price (currentAtrOf ts st)
          (ps.map (fun q : Tick => q.2)) i st
      | some g => (g, st.size, st)) = M →
      M.2.2.daily_atr = st.daily_atr ∧ M.2.2.daily_fee = st.daily_fee ∧
      M.2.2.current_pivot = st.current_pivot := by
    intro M hM
    rcases hgs : st.grid_size with _ | g <;> rw [hgs] at hM <;> rw [← hM] <;>
      exact ⟨rfl, rfl, rfl⟩
  simp only [tradingStep] at h
  generalize hM : (match st.grid_size with
      | none => calculate_grid cfg price (currentAtrOf ts st)
          (ps.map (fun q : Tick => q.2)) i st
      | some g => (g, st.size, st)) = M at h
  obtain ⟨m1, m2, m3⟩ := hMfacts M hM
  generalize hB : breachStep cfg (ps.map (fun q : Tick => q.2)) i price ts
    M.2.2 M.1 M.2.1 = B at h
  have bf := breachStep_facts cfg (ps.map (fun q : Tick => q.2)) i price ts
    M.2.2 M.1 M.2.1
  rw [hB] at bf
  obtain ⟨b1, b2, b3⟩ := bf
  generalize hT : tpLossLoop cfg (ps.map (fun q : Tick => q.2)) i price ts
    (cfg.take_profit_factor * B.2.1 * cfg.contract_value)
    (max_loss_per_trade cfg) B.1.positions B.1 B.2.1 B.2.2.1 = T at h
  have tf := tpLossLoop_facts cfg (ps.map (fun q : Tick => q.2)) i price ts
    (cfg.take_profit_factor * B.2.1 * cfg.contract_value)
    (max_loss_per_trade cfg) B.1.positions B.1 B.2.1 B.2.2.1
  rw [hT] at tf
  obtain ⟨t1, t2, t3, t4, t5, t6, t7, t8, t9, t10, t11, t12⟩ := tf
  generalize hE : entryStep cfg price ts T.2.1 T.2.2.1 T.2.2.2 T.1 = E at h
  have ef := entryStep_facts cfg price ts T.2.1 T.2.2.1 T.2.2.2 T.1
  rw [hE] at ef
  obtain ⟨e1, e2, e3, e4, e5, e6, e7⟩ := ef
  obtain ⟨hfl, hpiv, hatr, hld, hfee⟩ :=
    tickFinish_frame _ _ _ _ _ _ _ _ _ _ _ h
  subst hfl
  refine ⟨?_, ?_, ?_⟩
  · rintro (hb | hm)
    · rcases hforced : T.2.2.2 with _ | _
      · rw [hpiv, e5, t12 hforced]
        exact (b2 hb).1
      · rw [hpiv, e5]
        exact (t11 hforced).1
    · rw [hpiv, e5]
      exact (t11 hm).1
  · rintro ⟨hb, hm⟩
    rw [hpiv, e5, t12 hm, b3 hb, m3]
  · rcases hbf2 : B.2.2.2 with _ | _
    · rw [hatr, e1, t1, b3 hbf2, m1]
    · rw [hatr, e1, t1, (b2 hbf2).2.2.1, m1]

/-- Pivot and flag tracking through one full tick: the pivot moves to
the tick price exactly on the rebase branches, and is untouched on
no-rebase ticks. -/
theorem processTick_pivot (cfg : Config) (ps : List Tick) (ldd : ℕ) (i : ℕ)
    (st : St) (st' : St) (f : TickFlags)
    (h : processTick cfg ps ldd i st = some (st', f)) :
    (f.breach = true ∨ f.maxLoss = true →
      st'.current_pivot = (ps.getD i (⟨0, 0⟩, 0)).2) ∧
    (f.breach = false ∧ f.maxLoss = false →
      st'.current_pivot = st.current_pivot) := by
  obtain ⟨o1, o2, o3, o4, o5, o6, o7, o8, o9, o10⟩ :=
    overnightStep_facts (ps.getD i (⟨0, 0⟩, 0)).1 st
  obtain ⟨d1, d2, d3, d4, d5, d6, d7, d8, d9, d10, d11⟩ :=
    dailyAtrStep_facts ps (ps.getD i (⟨0, 0⟩, 0)).1
      (overnightStep (ps.getD i (⟨0, 0⟩, 0)).1 st)
  have hpres : (dailyAtrStep ps (ps.getD i (⟨0, 0⟩, 0)).1
      (overnightStep (ps.getD i (⟨0, 0⟩, 0)).1 st)).current_pivot =
      st.current_pivot := d10.trans o9
  simp only [processTick] at h
  split at h
  · obtain ⟨c1, c2, c3, c4, c5, c6, c7, c8, c9, c10, c11⟩ :=
      close_all_frame cfg (ps.getD i (⟨0, 0⟩, 0)).2 (ps.getD i (⟨0, 0⟩, 0)).1
        (dailyAtrStep ps (ps.getD i (⟨0, 0⟩, 0)).1
          (overnightStep (ps.getD i (⟨0, 0⟩, 0)).1 st))
    injection h with h2
    injection h2 with ha hb
    subst ha
    subst hb
    exact ⟨fun hc => by rcases hc with hc | hc <;> exact Bool.noConfusion hc,
      fun _ => by simpa [writeEquity] using c10.trans hpres⟩
  · split at h
    · injection h with h2
      injection h2 with ha hb
      subst ha
      subst hb
      exact ⟨fun hc => by rcases hc with hc | hc <;> exact Bool.noConfusion hc,
        fun _ => hpres⟩
    · split at h
      · injection h with h2
        injection h2 with ha hb
        subst ha
        subst hb
        exact ⟨fun hc => by rcases hc with hc | hc <;> exact Bool.noConfusion hc,
          fun _ => by simpa [writeEquity] using hpres⟩
      · obtain ⟨p1, p2, p3⟩ := tradingStep_pivot _ _ _ _ _ _ _ _ h
        exact ⟨fun hc => p1 hc, fun hc => (p2 hc).trans hpres⟩

/-- The once-per-run daily-ATR assignment: an already-set daily ATR is
never modified by a tick, and on a trading-time tick with no daily ATR
yet it is set from that day's pre-market window (or the last valid ATR
when the window has under two points). -/
theorem processTick_daily_atr (cfg : Config) (ps : List Tick) (ldd : ℕ)
    (i : ℕ) (st : St) (st' : St) (f : TickFlags)
    (h : processTick cfg ps ldd i st = some (st', f)) :
    (∀ v, st.daily_atr = some v → st'.daily_atr = some v) ∧
    (st.daily_atr = none →
      is_trading_time (ps.getD i (⟨0, 0⟩, 0)).1 = true →
      st'.daily_atr = some
        (if 2 ≤ (premarketData ps (ps.getD i (⟨0, 0⟩, 0)).1.date).length then
          calculate_atr_window (premarketData ps (ps.getD i (⟨0, 0⟩, 0)).1.date)
            (premarketData ps (ps.getD i (⟨0, 0⟩, 0)).1.date).length 1
        else st.last_valid_atr)) := by
  obtain ⟨o1, o2, o3, o4, o5, o6, o7, o8, o9, o10⟩ :=
    overnightStep_facts (ps.getD i (⟨0, 0⟩, 0)).1 st
  have hbranch : st'.daily_atr = (dailyAtrStep ps (ps.getD i (⟨0, 0⟩, 0)).1
      (overnightStep (ps.getD i (⟨0, 0⟩, 0)).1 st)).daily_atr := by
    simp only [processTick] at h
    split at h
    · obtain ⟨c1, c2, c3, c4, c5, c6, c7, c8, c9, c10, c11⟩ :=
        close_all_frame cfg (ps.getD i (⟨0, 0⟩, 0)).2 (ps.getD i (⟨0, 0⟩, 0)).1
          (dailyAtrStep ps (ps.getD i (⟨0, 0⟩, 0)).1
            (overnightStep (ps.getD i (⟨0, 0⟩, 0)).1 st))
      injection h with h2
      injection h2 with ha hb
      subst ha
      simpa [writeEquity] using c3
    · split at h
      · injection h with h2
        injection h2 with ha hb
        subst ha
        rfl
      · split at h
        · injection h with h2
          injection h2 with ha hb
          subst ha
          simp [writeEquity]
        · exact (tradingStep_pivot _ _ _ _ _ _ _ _ h).2.2
  refine ⟨?_, ?_⟩
  · intro v hv
    rw [hbranch, dailyAtrStep]
    rw [if_neg (fun hc => by
      have hx := hc.1
      rw [o3.trans hv] at hx
      exact Option.noConfusion hx)]
    exact o3.trans hv
  · intro hnone htrad
    rw [hbranch, dailyAtrStep]
    simp only []
    rw [if_pos ⟨o3.trans hnone, htrad⟩]
    by_cases hlen : 2 ≤ (premarketData ps (ps.getD i (⟨0, 0⟩, 0)).1.date).length
    · rw [if_pos hlen, if_pos hlen]
    · rw [if_neg hlen, if_neg hlen, o10]

theorem close_all_equity (cfg : Config) (price : ℚ) (ts : Timestamp)
    (st : St) :
    (close_all_positions cfg price ts st).1.equity = st.equity :=
  (close_all_frame cfg price ts st).2.2.2.2.2.1

theorem overnightStep_equity (ts : Timestamp) (st : St) :
    (overnightStep ts st).equity = st.equity :=
  (overnightStep_facts ts st).2.2.2.2.1

theorem dailyAtrStep_equity (ps : List Tick) (ts : Timestamp) (st : St) :
    (dailyAtrStep ps ts st).equity = st.equity :=
  (dailyAtrStep_facts ps ts st).2.2.2.2.2.1

/-- Equity handling of the tick tail: one slot (index `i`) is written,
with a present value, and all other slots are untouched. -/
theorem tickFinish_equity (cfg : Config) (ps : List Tick) (i : ℕ) (price : ℚ)
    (ts : Timestamp) (flags : TickFlags) (gs size : ℚ) (st : St) (st' : St)
    (f : TickFlags)
    (h : tickFinish cfg ps i price ts flags gs size st = some (st', f)) :
    st'.equity.length = st.equity.length ∧
    (∀ j, j ≠ i → st'.equity[j]? = st.equity[j]?) ∧
    (i < st.equity.length → st'.equity[i]? ≠ some none) := by
  simp only [tickFinish] at h
  split at h
  · exact Option.noConfusion h
  · split at h
    · injection h with h2
      injection h2 with ha hb
      subst ha
      refine ⟨?_, ?_, ?_⟩
      · simp [writeEquity, close_all_equity]
      · intro j hj
        simp only [writeEquity, close_all_equity]
        rw [List.getElem?_set_ne (by omega), List.getElem?_set_ne (by omega)]
      · intro hi hcon
        simp only [writeEquity, close_all_equity] at hcon
        rw [List.getElem?_set_eq_of_lt] at hcon
        · exact absurd (Option.some.inj hcon) (by simp)
        · simpa using hi
    · injection h with h2
      injection h2 with ha hb
      subst ha
      refine ⟨?_, ?_, ?_⟩
      · simp [writeEquity]
      · intro j hj
        simp only [writeEquity]
        rw [List.getElem?_set_ne (by omega)]
      · intro hi hcon
        simp only [writeEquity] at hcon
        rw [List.getElem?_set_eq_of_lt _ hi] at hcon
        exact absurd (Option.some.inj hcon) (by simp)

/-- Equity handling of the trading path. -/
theorem tradingStep_equity (cfg : Config) (ps : List Tick) (i : ℕ) (price : ℚ)
    (ts : Timestamp) (st : St) (st' : St) (f : TickFlags)
    (h : tradingStep cfg ps i price ts st = some (st', f)) :
    st'.equity.length = st.equity.length ∧
    (∀ j, j ≠ i → st'.equity[j]? = st.equity[j]?) ∧
    (i < st.equity.length → st'.equity[i]? ≠ some none) := by
  have hMeq : ∀ M : ℚ × ℚ × St, (match st.grid_size with
      | none => calculate_grid cfg price (currentAtrOf ts st)
          (ps.map (fun q : Tick => q.2)) i st
      | some g => (g, st.size, st)) = M → M.2.2.equity = st.equity := by
    intro M hM
    rcases hgs : st.grid_size with _ | g <;> rw [hgs] at hM <;> rw [← hM] <;> rfl
  simp only [tradingStep] at h
  generalize hM : (match st.grid_size with
      | none => calculate_grid cfg price (currentAtrOf ts st)
          (ps.map (fun q : Tick => q.2)) i st
      | some g => (g, st.size, st)) = M at h
  have m1 := hMeq M hM
  generalize hB : breachStep cfg (ps.map (fun q : Tick => q.2)) i price ts
    M.2.2 M.1 M.2.1 = B at h
  have bf := breachStep_facts cfg (ps.map (fun q : Tick => q.2)) i price ts
    M.2.2 M.1 M.2.1
  rw [hB] at bf
  obtain ⟨b1, b2, b3⟩ := bf
  have hBeq : B.1.equity = st.equity := by
    rcases hbf : B.2.2.2 with _ | _
    · rw [b3 hbf, m1]
    · rw [(b2 hbf).2.2.2.2.2.1, m1]
  generalize hT : tpLossLoop cfg (ps.map (fun q : Tick => q.2)) i price ts
    (cfg.take_profit_factor * B.2.1 * cfg.contract_value)
    (max_loss_per_trade cfg) B.1.positions B.1 B.2.1 B.2.2.1 = T at h
  have tf := tpLossLoop_facts cfg (ps.map (fun q : Tick => q.2)) i price ts
    (cfg.take_profit_factor * B.2.1 * cfg.contract_value)
    (max_loss_per_trade cfg) B.1.positions B.1 B.2.1 B.2.2.1
  rw [hT] at tf
  have hTeq : T.1.equity = st.equity := tf.2.2.2.1.trans hBeq
  generalize hE : entryStep cfg price ts T.2.1 T.2.2.1 T.2.2.2 T.1 = E at h
  have ef := entryStep_facts cfg price ts T.2.1 T.2.2.1 T.2.2.2 T.1
  rw [hE] at ef
  have hEeq : E.equity = st.equity := ef.2.1.trans hTeq
  obtain ⟨q1, q2, q3⟩ := tickFinish_equity _ _ _ _ _ _ _ _ _ _ _ h
  rw [hEeq] at q1 q2 q3
  exact ⟨q1, q2, q3⟩

/-- Equity handling of one full tick: the slot of the processed index is
the only one that can change; when it is left missing, it was missing
before and the tick is an off-hours tick (neither trading time nor the
end-of-day window). -/
theorem processTick_equity (cfg : Config) (ps : List Tick) (ldd : ℕ) (i : ℕ)
    (st : St) (st' : St) (f : TickFlags)
    (h : processTick cfg ps ldd i st = some (st', f)) :
    st'.equity.length = st.equity.length ∧
    (∀ j, j ≠ i → st'.equity[j]? = st.equity[j]?) ∧
    (i < st.equity.length →
      st'.equity[i]? = some none →
      st.equity[i]? = some none ∧
      is_trading_time (ps.getD i (⟨0, 0⟩, 0)).1 = false ∧
      is_end_of_day (ps.getD i (⟨0, 0⟩, 0)).1 = false) := by
  simp only [processTick] at h
  split at h
  · injection h with h2
    injection h2 with ha hb
    subst ha
    refine ⟨?_, ?_, ?_⟩
    · simp [writeEquity, close_all_equity, dailyAtrStep_equity,
        overnightStep_equity]
    · intro j hj
      simp only [writeEquity, close_all_equity, dailyAtrStep_equity,
        overnightStep_equity]
      rw [List.getElem?_set_ne (by omega)]
    · intro hi hcon
      simp only [writeEquity, close_all_equity, dailyAtrStep_equity,
        overnightStep_equity] at hcon
      rw [List.getElem?_set_eq_of_lt _ hi] at hcon
      exact absurd (Option.some.inj hcon) (by simp)
  · split at h
    · injection h with h2
      injection h2 with ha hb
      subst ha
      rename_i hnot1 hcond
      obtain ⟨hc1, hc2, hc3⟩ := hcond
      refine ⟨by simp [dailyAtrStep_equity, overnightStep_equity],
        fun j _ => by simp [dailyAtrStep_equity, overnightStep_equity],
        fun _ hmiss => ?_⟩
      rw [dailyAtrStep_equity, overnightStep_equity] at hmiss
      exact ⟨hmiss, by simpa using hc1, by simpa using hc2⟩
    · split at h
      · injection h with h2
        injection h2 with ha hb
        subst ha
        refine ⟨?_, ?_, ?_⟩
        · simp [writeEquity, dailyAtrStep_equity, overnightStep_equity]
        · intro j hj
          simp only [writeEquity, dailyAtrStep_equity, overnightStep_equity]
          rw [List.getElem?_set_ne (by omega)]
        · intro hi hcon
          simp only [writeEquity, dailyAtrStep_equity,
            overnightStep_equity] at hcon
          rw [List.getElem?_set_eq_of_lt _ hi] at hcon
          exact absurd (Option.some.inj hcon) (by simp)
      · obtain ⟨q1, q2, q3⟩ := tradingStep_equity _ _ _ _ _ _ _ _ h
        rw [dailyAtrStep_equity, overnightStep_equity] at q1 q2 q3
        exact ⟨q1, q2, fun hi hcon => absurd hcon (q3 hi)⟩

/-- Run-level equity bookkeeping: starting from a state whose equity
series has one slot per tick, the initial-capital head entry, and whose
missing entries are all off-hours or still to be processed, a completed
run keeps the length and head and leaves entries missing only at
off-hours ticks. -/
theorem runFrom_equity (cfg : Config) (ps : List Tick) (ldd : ℕ) :
    ∀ (l : List ℕ) (st st' : St),
      runFrom cfg ps ldd l st = some st' →
      (∀ j ∈ l, j ≠ 0 ∧ j < ps.length) →
      st.equity.length = ps.length →
      st.equity[0]? = some (some cfg.capital) →
      (∀ j, st.equity[j]? = some none →
        (is_trading_time (ps.getD j (⟨0, 0⟩, 0)).1 = false ∧
         is_end_of_day (ps.getD j (⟨0, 0⟩, 0)).1 = false) ∨ j ∈ l) →
      st'.equity.length = ps.length ∧
      st'.equity[0]? = some (some cfg.capital) ∧
      (∀ j, st'.equity[j]? = some none →
        is_trading_time (ps.getD j (⟨0, 0⟩, 0)).1 = false ∧
        is_end_of_day (ps.getD j (⟨0, 0⟩, 0)).1 = false) := by
  intro l
  induction l with
  | nil =>
    intro st st' h _ hlen h0 hmiss
    simp only [runFrom, Option.some.injEq] at h
    subst h
    refine ⟨hlen, h0, fun j hj => ?_⟩
    rcases hmiss j hj with hcase | hcase
    · exact hcase
    · cases hcase
  | cons i rest ih =>
    intro st st' h hl hlen h0 hmiss
    simp only [runFrom] at h
    rcases hp : processTick cfg ps ldd i st with _ | ⟨st1, fl⟩
    · rw [hp] at h
      exact Option.noConfusion h
    · rw [hp] at h
      obtain ⟨q1, q2, q3⟩ := processTick_equity _ _ _ _ _ _ _ hp
      obtain ⟨hi0, hilen⟩ := hl i (List.mem_cons_self i rest)
      refine ih st1 st' h (fun j hj => hl j (List.mem_cons_of_mem i hj))
        (q1.trans hlen) ?_ ?_
      · rw [q2 0 (fun hc => hi0 hc.symm)]
        exact h0
      · intro j hj
        by_cases hji : j = i
        · subst hji
          rcases q3 (by omega) hj with ⟨_, ht, he⟩
          exact Or.inl ⟨ht, he⟩
        · rw [q2 j hji] at hj
          rcases hmiss j hj with hcase | hcase
          · exact Or.inl hcase
          · rcases List.mem_cons.mp hcase with hcase2 | hcase2
            · exact absurd hcase2 hji
            · exact Or.inr hcase2

/-- The engine state at the end of a full run (the loop over indices
`1 .. len-1`). -/
def runOf (cfg : Config) (ps : List Tick) : Option St :=
  stateAfter cfg ps (ps.length - 1)

/-- The metrics of an `ok` outcome. -/
def RunOutcome.metricsOf : RunOutcome → Option Metrics
  | .ok m => some m
  | _ => none

theorem backtest_eq_runOf (cfg : Config) (ps : List Tick) (t0 : Tick)
    (rest : List Tick) (hps : ps = t0 :: rest) :
    backtest cfg ps =
      (match runOf cfg ps with
       | none => RunOutcome.insolvent
       | some st => calculate_performance_metrics cfg ps st) := by
  subst hps
  rfl

/-- Outcome shape of the metrics computation: empty recorded equity
yields the `None` return, an equity span under one day hits the
`252 / days` division by zero, and otherwise a metrics bundle is
produced. -/
theorem metrics_classification (cfg : Config) (ps : List Tick) (st : St) :
    (calculate_performance_metrics cfg ps st = .emptyEquity ↔
      dropnaEquity ps st = []) ∧
    (calculate_performance_metrics cfg ps st = .zeroDaySpan →
      ∃ e0 tail, dropnaEquity ps st = e0 :: tail ∧
        daysBetween e0.1 ((dropnaEquity ps st).getLastD e0).1 = 0) ∧
    (calculate_performance_metrics cfg ps st = .emptyEquity ∨
     calculate_performance_metrics cfg ps st = .zeroDaySpan ∨
     ∃ m, calculate_performance_metrics cfg ps st = .ok m) := by
  unfold calculate_performance_metrics
  rcases hd : dropnaEquity ps st with _ | ⟨e0, tail⟩
  · exact ⟨by simp, fun hc => by simp at hc, Or.inl rfl⟩
  · simp only []
    split
    · rename_i hdays
      exact ⟨by simp, fun _ => ⟨e0, tail, rfl, hdays⟩, Or.inr (Or.inl rfl)⟩
    · exact ⟨by simp, fun hc => by simp at hc, Or.inr (Or.inr ⟨_, rfl⟩)⟩

/-- The `ok` metrics bundle records the turnover ratio as total traded
volume times contract value over the end-of-run `self.capital`, times
100. -/
theorem metrics_ok_turnover (cfg : Config) (ps : List Tick) (st : St)
    (m : Metrics) (h : calculate_performance_metrics cfg ps st = .ok m) :
    m.turnover_ratio =
      (st.trades.map (fun t => |t.2.2.2|)).sum * cfg.contract_value /
        st.capital * 100 := by
  unfold calculate_performance_metrics at h
  rcases hd : dropnaEquity ps st with _ | ⟨e0, tail⟩ <;> rw [hd] at h
  · exact RunOutcome.noConfusion h
  · simp only [] at h
    split at h
    · exact RunOutcome.noConfusion h
    · injection h with h2
      rw [← h2]

/-- The `ok` metrics bundle records `final_capital` as the last
non-missing equity entry. -/
theorem metrics_ok_final_capital (cfg : Config) (ps : List Tick) (st : St)
    (m : Metrics) (e0 : Timestamp × ℚ) (tail : List (Timestamp × ℚ))
    (hd : dropnaEquity ps st = e0 :: tail)
    (h : calculate_performance_metrics cfg ps st = .ok m) :
    m.final_capital = ((dropnaEquity ps st).getLastD e0).2 := by
  unfold calculate_performance_metrics at h
  rw [hd] at h
  simp only [] at h
  split at h
  · exact RunOutcome.noConfusion h
  · injection h with h2
    rw [← h2, hd]

/-! ### Concrete scenarios -/

/-- Strictly time-ascending input series (the validity condition of the
spec). -/
def timeAscending : List Tick → Bool
  | [] => true
  | [_] => true
  | a :: b :: rest => decide (a.1.abs < b.1.abs) && timeAscending (b :: rest)

/-- Scenario: day 0 opens a BUY at 99.3 (level 1 of pivot 100), an
after-hours day-0 tick is skipped with the position open, and the final
day-1 tick closes out. -/
def psSkipTick : List Tick :=
  [(⟨0, 32400⟩, 100), (⟨0, 33000⟩, 993/10), (⟨0, 55000⟩, 993/10),
   (⟨1, 33000⟩, 993/10)]

/-- Scenario: two trading ticks on one calendar day. -/
def psSameDay : List Tick := [(⟨0, 32400⟩, 100), (⟨0, 33000⟩, 100)]

/-- Configuration with a max-loss threshold of 5000 (500000000 × 1/100
/ 100000), hit by a 0.05-point adverse move of one contract. -/
def cfgTinyMaxLoss : Config := { defaultConfig with max_loss := 1/100 }

/-- Scenario: a BUY opens at 99.3, then the price slips by 0.1 to 99.2 —
inside the pivot band, but the loss of 10000 is well past the (tiny)
max-loss threshold of 5000. -/
def psMaxLoss : List Tick :=
  [(⟨0, 32400⟩, 100), (⟨0, 33000⟩, 993/10), (⟨0, 33100⟩, 992/10)]

/-- Scenario: day 0 has no pre-market data; day 1 has a two-point
08:46-08:48 pre-market stretch (window ATR 2) before its first
trading-time tick. -/
def psTwoDayAtr : List Tick :=
  [(⟨0, 32400⟩, 100), (⟨0, 33000⟩, 100), (⟨1, 31600⟩, 105),
   (⟨1, 31700⟩, 107), (⟨1, 33000⟩, 106)]

/-- Scenario: a BUY opens on day 0 and is never closed — the day-1 tick
falls in the end-of-day window (equity marked at realized capital) and
the final day-2 tick is off-hours with the position open, so the run
ends still holding the position. -/
def psOpenEnd : List Tick :=
  [(⟨0, 32400⟩, 100), (⟨0, 33000⟩, 993/10), (⟨0, 34000⟩, 1003/10),
   (⟨1, 52150⟩, 1003/10), (⟨2, 20000⟩, 1003/10)]

/-- Equity facts of any completed run: one slot per tick, slot 0 holds
the initial capital, and a missing slot only occurs at an off-hours
tick. -/
theorem runOf_equity_facts (cfg : Config) (t0 : Tick) (rest : List Tick)
    (st : St) (hr : runOf cfg (t0 :: rest) = some st) :
    st.equity.length = (t0 :: rest).length ∧
    st.equity[0]? = some (some cfg.capital) ∧
    ∀ i, st.equity[i]? = some none →
      is_trading_time ((t0 :: rest).getD i (⟨0, 0⟩, 0)).1 = false ∧
      is_end_of_day ((t0 :: rest).getD i (⟨0, 0⟩, 0)).1 = false := by
  have hrun : runFrom cfg (t0 :: rest) (((t0 :: rest).getLastD t0).1.date)
      (List.range' 1 ((t0 :: rest).length - 1))
      (initState cfg t0 (t0 :: rest).length) = some st := hr
  have hinit_len : (initState cfg t0 (t0 :: rest).length).equity.length =
      (t0 :: rest).length := by
    simp [initState]
  have hinit0 : (initState cfg t0 (t0 :: rest).length).equity[0]? =
      some (some cfg.capital) := by
    simp [initState]
  have hinit_miss : ∀ j,
      (initState cfg t0 (t0 :: rest).length).equity[j]? = some none →
      (is_trading_time ((t0 :: rest).getD j (⟨0, 0⟩, 0)).1 = false ∧
       is_end_of_day ((t0 :: rest).getD j (⟨0, 0⟩, 0)).1 = false) ∨
      j ∈ List.range' 1 ((t0 :: rest).length - 1) := by
    intro j hj
    right
    rcases j with _ | k
    · rw [hinit0] at hj
      exact absurd (Option.some.inj hj) (by simp)
    · simp only [initState, List.getElem?_cons_succ,
        List.getElem?_replicate] at hj
      split at hj
      · rename_i hk
        rw [List.mem_range'_1]
        simp only [List.length_cons] at hk ⊢
        omega
      · exact Option.noConfusion hj
  have hl : ∀ j ∈ List.range' 1 ((t0 :: rest).length - 1),
      j ≠ 0 ∧ j < (t0 :: rest).length := by
    intro j hj
    rw [List.mem_range'_1] at hj
    simp only [List.length_cons] at hj ⊢
    omega
  exact runFrom_equity cfg (t0 :: rest) _ _ _ _ hrun hl hinit_len hinit0
    hinit_miss

/-! ### Claim C1 -/

unseal Rat.add Rat.mul Rat.sub Rat.inv in
/-- **C1 counterexample**: `psSkipTick` is non-empty and time-ascending
and its run completes with metrics, yet the equity slot of tick 2 (an
off-hours tick processed while a position was open) is left missing —
the curve does not have one non-missing entry per input tick. -/
theorem equity_missing_entry_cex :
    timeAscending psSkipTick = true ∧ psSkipTick ≠ [] ∧
    (backtest defaultConfig psSkipTick).metricsOf.isSome = true ∧
    (runOf defaultConfig psSkipTick).map (fun s => s.equity[2]?) =
      some (some none) :=
  ⟨by decide, by decide, by decide, by decide⟩

/-- **C1 amended**: for every completed run the equity series has
exactly one slot per input tick, its first entry equals the configured
initial capital, and an entry is missing exactly at the skipped ticks —
it can only be missing at an off-hours tick (one that is neither inside
trading time nor inside the end-of-day window). -/
theorem equity_curve_amended (cfg : Config) (ps : List Tick) (t0 : Tick)
    (rest : List Tick) (m : Metrics) (hps : ps = t0 :: rest)
    (hok : backtest cfg ps = .ok m) :
    ∃ st, runOf cfg ps = some st ∧
      st.equity.length = ps.length ∧
      st.equity[0]? = some (some cfg.capital) ∧
      ∀ i, st.equity[i]? = some none →
        is_trading_time (ps.getD i (⟨0, 0⟩, 0)).1 = false ∧
        is_end_of_day (ps.getD i (⟨0, 0⟩, 0)).1 = false := by
  subst hps
  rw [backtest_eq_runOf cfg (t0 :: rest) t0 rest rfl] at hok
  rcases hr : runOf cfg (t0 :: rest) with _ | st
  · rw [hr] at hok
    exact RunOutcome.noConfusion hok
  · exact ⟨st, rfl, runOf_equity_facts cfg t0 rest st hr⟩

unseal Rat.add Rat.mul Rat.sub Rat.inv in
/-- Witness for the amended C1 statement on the `psSkipTick` run. -/
theorem equity_curve_amended_witness :
    ∃ m st, backtest defaultConfig psSkipTick = .ok m ∧
      runOf defaultConfig psSkipTick = some st ∧
      st.equity.length = psSkipTick.length ∧
      st.equity[0]? = some (some defaultConfig.capital) ∧
      ∀ i, st.equity[i]? = some none →
        is_trading_time (psSkipTick.getD i (⟨0, 0⟩, 0)).1 = false ∧
        is_end_of_day (psSkipTick.getD i (⟨0, 0⟩, 0)).1 = false := by
  have hok : (backtest defaultConfig psSkipTick).metricsOf.isSome = true := by
    decide
  obtain ⟨m, hm⟩ : ∃ m, backtest defaultConfig psSkipTick = .ok m := by
    rcases hbt : backtest defaultConfig psSkipTick with _ | _ | _ | _ | m <;>
      rw [hbt] at hok
    · exact Bool.noConfusion hok
    · exact Bool.noConfusion hok
    · exact Bool.noConfusion hok
    · exact Bool.noConfusion hok
    · exact ⟨m, rfl⟩
  obtain ⟨st, hst, h1, h2, h3⟩ := equity_curve_amended defaultConfig
    psSkipTick (⟨0, 32400⟩, 100)
    [(⟨0, 33000⟩, 993/10), (⟨0, 55000⟩, 993/10), (⟨1, 33000⟩, 993/10)]
    m rfl hm
  exact ⟨m, st, hm, hst, h1, h2, h3⟩

/-! ### Claim C2 -/

/-- **C2**: after each processed tick of any run, the position ledger
holds at most `max_positions = 12` positions, at most 6 of them BUY and
at most 6 of them SELL. -/
theorem ledger_caps (cfg : Config) (ps : List Tick) (k : ℕ) (st : St)
    (h : stateAfter cfg ps k = some st) :
    st.positions.length ≤ max_positions ∧
    countBuys st.positions ≤ 6 ∧ countSells st.positions ≤ 6 := by
  obtain ⟨hb, hs, _, _⟩ := stateAfter_inv cfg ps k st h
  refine ⟨?_, hb, hs⟩
  have hlen := length_eq_countBuys_add_countSells st.positions
  simp only [max_positions]
  omega

unseal Rat.add Rat.mul Rat.sub Rat.inv in
/-- Witness for C2 on the completed `psSkipTick` run. -/
theorem ledger_caps_witness :
    ∃ st, stateAfter defaultConfig psSkipTick 3 = some st ∧
      st.positions.length ≤ max_positions ∧
      countBuys st.positions ≤ 6 ∧ countSells st.positions ≤ 6 := by
  have h : (stateAfter defaultConfig psSkipTick 3).isSome = true := by decide
  obtain ⟨st, hst⟩ := Option.isSome_iff_exists.mp h
  exact ⟨st, hst, ledger_caps defaultConfig psSkipTick 3 st hst⟩

/-! ### Claim C7 -/

/-- Total of the `fee` fields of the trade records dated on day `d`,
excluding the `TOTAL_FEE` summary records (whose fee repeats the
per-close fees already recorded). -/
def feesPaidOn (d : ℕ) (h : List TradeRec) : ℚ :=
  ((h.filter (fun r => decide (r.ts.date = d) &&
      decide (r.kind ≠ TradeKind.TOTAL_FEE))).map (fun r => r.fee)).sum

unseal Rat.add Rat.mul Rat.sub Rat.inv in
/-- **C7 counterexample**: at the end of the `psSkipTick` run the
engine has paid 49550 in fees on day 1 (the current day of the final
tick), yet the daily-fee accumulator reads 0 — it does not track the
running total of fees paid during the current day. -/
theorem daily_fee_cex :
    (runOf defaultConfig psSkipTick).map
        (fun s => (s.daily_fee, s.last_date, feesPaidOn 1 s.trade_history)) =
      some (0, 1, 49550) ∧ (0 : ℚ) ≠ 49550 :=
  ⟨by decide, by decide⟩

/-- **C7 amended**: the daily-fee accumulator is identically zero after
every processed tick (no fee-charging call site passes a nonzero fee,
and the date-rollover branch only re-zeroes it), so the
`daily_fee_limit` gate in `check_daily_fee` can never fire: starting
from any reachable state it reports `False` and leaves the accumulator
at zero. -/
theorem daily_fee_amended (cfg : Config) (ps : List Tick) (k : ℕ) (st : St)
    (h : stateAfter cfg ps k = some st) :
    st.daily_fee = 0 ∧ ∀ ts : Timestamp,
      (check_daily_fee ts 0 st).1 = false ∧
      (check_daily_fee ts 0 st).2.daily_fee = 0 := by
  obtain ⟨_, _, hdf, _⟩ := stateAfter_inv cfg ps k st h
  refine ⟨hdf, fun ts => ?_⟩
  obtain ⟨-, -, -, -, -, -, -, -, -, hlast⟩ := check_daily_fee_facts ts st
  obtain ⟨h1, h2⟩ := hlast hdf
  exact ⟨h2, h1⟩

unseal Rat.add Rat.mul Rat.sub Rat.inv in
/-- Witness for the amended C7 statement on the `psSkipTick` run. -/
theorem daily_fee_amended_witness :
    ∃ st, stateAfter defaultConfig psSkipTick 2 = some st ∧
      st.daily_fee = 0 ∧ ∀ ts : Timestamp,
        (check_daily_fee ts 0 st).1 = false ∧
        (check_daily_fee ts 0 st).2.daily_fee = 0 := by
  have h : (stateAfter defaultConfig psSkipTick 2).isSome = true := by decide
  obtain ⟨st, hst⟩ := Option.isSome_iff_exists.mp h
  exact ⟨st, hst, daily_fee_amended defaultConfig psSkipTick 2 st hst⟩

/-! ### Claim C9 -/

unseal Rat.add Rat.mul Rat.sub Rat.inv in
/-- **C9 counterexample**: the `psOpenEnd` run completes with
`final_capital = 499997450`, but the trade-record log sums to −5100,
and `499997450 − 500000000 = −2550 ≠ −5100`: `final_capital` is the
last non-missing equity entry (the day-1 end-of-day write of the then
current capital), while the day-2 overnight fee of 2550 posts after
that write, on a skipped off-hours tick — the end-of-run capital is
499994900, which the log does explain. -/
theorem final_capital_history_cex :
    (backtest defaultConfig psOpenEnd).metricsOf.map
        (fun m => m.final_capital) = some 499997450 ∧
    (runOf defaultConfig psOpenEnd).map
        (fun s => histSum s.trade_history) = some (-5100) ∧
    (runOf defaultConfig psOpenEnd).map (fun s => s.capital) =
      some 499994900 ∧
    (499997450 : ℚ) - defaultConfig.capital ≠ -5100 :=
  ⟨by decide, by decide, by decide, by decide⟩

/-- **C9 amended**: after every processed tick the engine's realized
capital minus the initial capital equals exactly the sum over the
trade-record log of the recorded capital deltas (`profit` for position
records, `−fee` for overnight-fee records) — every change to the
capital field is explained by a logged entry; but the metrics'
`final_capital` is the last non-missing equity entry, not the
end-of-run capital, so the round-trip claimed against `final_capital`
can fail when the two differ (as when a fee posts after the last
equity write). -/
theorem capital_explained_amended :
    (∀ (cfg : Config) (ps : List Tick) (k : ℕ) (st : St),
      stateAfter cfg ps k = some st →
      st.capital - cfg.capital = histSum st.trade_history) ∧
    (∀ (cfg : Config) (ps : List Tick) (st : St) (m : Metrics)
        (e0 : Timestamp × ℚ) (tail : List (Timestamp × ℚ)),
      dropnaEquity ps st = e0 :: tail →
      calculate_performance_metrics cfg ps st = .ok m →
      m.final_capital = ((dropnaEquity ps st).getLastD e0).2) := by
  refine ⟨fun cfg ps k st h => ?_, fun cfg ps st m e0 tail hd h =>
    metrics_ok_final_capital cfg ps st m e0 tail hd h⟩
  obtain ⟨_, _, _, hres⟩ := stateAfter_inv cfg ps k st h
  simp only [capResidual] at hres
  linarith

unseal Rat.add Rat.mul Rat.sub Rat.inv in
/-- Witness for the amended C9 statement on the `psOpenEnd` run: the
realized capital is explained by the log at the final state, and the
reported `final_capital` is the last non-missing equity entry, 499997450
(the end-of-run capital being 499994900). -/
theorem capital_explained_amended_witness :
    (∃ st, stateAfter defaultConfig psOpenEnd 4 = some st ∧
      st.capital - defaultConfig.capital = histSum st.trade_history) ∧
    ∃ st m, runOf defaultConfig psOpenEnd = some st ∧
      calculate_performance_metrics defaultConfig psOpenEnd st = .ok m ∧
      m.final_capital = 499997450 := by
  obtain ⟨hcap, hfin⟩ := capital_explained_amended
  constructor
  · have h : (stateAfter defaultConfig psOpenEnd 4).isSome = true := by decide
    obtain ⟨st, hst⟩ := Option.isSome_iff_exists.mp h
    exact ⟨st, hst, hcap defaultConfig psOpenEnd 4 st hst⟩
  · have h1 : (runOf defaultConfig psOpenEnd).isSome = true := by decide
    obtain ⟨st, hst⟩ := Option.isSome_iff_exists.mp h1
    have hdrop : (runOf defaultConfig psOpenEnd).map
        (fun s => dropnaEquity psOpenEnd s) =
        some [(⟨0, 32400⟩, 500000000), (⟨0, 33000⟩, 500000000),
          (⟨0, 34000⟩, 500100000), (⟨1, 52150⟩, 499997450)] := by decide
    rw [hst] at hdrop
    replace hdrop : dropnaEquity psOpenEnd st =
        [(⟨0, 32400⟩, 500000000), (⟨0, 33000⟩, 500000000),
         (⟨0, 34000⟩, 500100000), (⟨1, 52150⟩, 499997450)] :=
      Option.some.inj hdrop
    have h2 : ((runOf defaultConfig psOpenEnd).bind
        (fun s => (calculate_performance_metrics defaultConfig psOpenEnd
          s).metricsOf)).isSome = true := by decide
    rw [hst] at h2
    replace h2 : (calculate_performance_metrics defaultConfig psOpenEnd
        st).metricsOf.isSome = true := h2
    rcases hm : calculate_performance_metrics defaultConfig psOpenEnd st
      with _ | _ | _ | _ | m <;> rw [hm] at h2
    · exact Bool.noConfusion h2
    · exact Bool.noConfusion h2
    · exact Bool.noConfusion h2
    · exact Bool.noConfusion h2
    · have hfc := hfin defaultConfig psOpenEnd st m (⟨0, 32400⟩, 500000000)
        [(⟨0, 33000⟩, 500000000), (⟨0, 34000⟩, 500100000),
         (⟨1, 52150⟩, 499997450)] hdrop hm
      rw [hdrop] at hfc
      exact ⟨st, m, hst, hm, hfc.trans (by decide)⟩

/-! ### Claim C5 -/

unseal Rat.add Rat.mul Rat.sub Rat.inv in
/-- **C5 counterexample**: the `psSkipTick` run trades a total absolute
size of 1, so the claimed formula gives 1 × 100000 / 500000000 × 100 =
1/50, but the reported turnover ratio is 200000/9999009 — the source
divides by `self.capital`, which at that point holds the end-of-run
realized capital 499950450, not the initial capital. -/
theorem turnover_cex :
    (backtest defaultConfig psSkipTick).metricsOf.map
        (fun m => m.turnover_ratio) = some (200000 / 9999009) ∧
    (runOf defaultConfig psSkipTick).map
        (fun s => ((s.trades.map (fun t => |t.2.2.2|)).sum, s.capital)) =
      some (1, 499950450) ∧
    (1 : ℚ) * defaultConfig.contract_value / defaultConfig.capital * 100 =
      1 / 50 ∧
    (200000 : ℚ) / 9999009 ≠ 1 / 50 :=
  ⟨by decide, by decide, by decide, by decide⟩

/-- **C5 amended**: the reported turnover ratio is the sum of absolute
trade sizes times `contract_value`, divided by the capital field at the
end of the run (the realized final capital, mutated over the run), times
100 — not divided by the initial capital. -/
theorem turnover_amended (cfg : Config) (ps : List Tick) (st : St)
    (m : Metrics) (h : calculate_performance_metrics cfg ps st = .ok m) :
    m.turnover_ratio =
      (st.trades.map (fun t => |t.2.2.2|)).sum * cfg.contract_value /
        st.capital * 100 :=
  metrics_ok_turnover cfg ps st m h

unseal Rat.add Rat.mul Rat.sub Rat.inv in
/-- Witness for the amended C5 statement on the `psSkipTick` run. -/
theorem turnover_amended_witness :
    ∃ st m, runOf defaultConfig psSkipTick = some st ∧
      calculate_performance_metrics defaultConfig psSkipTick st = .ok m ∧
      m.turnover_ratio =
        (st.trades.map (fun t => |t.2.2.2|)).sum *
          defaultConfig.contract_value / st.capital * 100 := by
  have h1 : ((runOf defaultConfig psSkipTick).bind
      (fun s => (calculate_performance_metrics defaultConfig psSkipTick
        s).metricsOf)).isSome = true := by decide
  rcases hr : runOf defaultConfig psSkipTick with _ | st
  · rw [hr] at h1
    exact Bool.noConfusion h1
  · rw [hr] at h1
    replace h1 : (calculate_performance_metrics defaultConfig psSkipTick
        st).metricsOf.isSome = true := h1
    rcases hm : calculate_performance_metrics defaultConfig psSkipTick st
      with _ | _ | _ | _ | m <;> rw [hm] at h1
    · exact Bool.noConfusion h1
    · exact Bool.noConfusion h1
    · exact Bool.noConfusion h1
    · exact Bool.noConfusion h1
    · exact ⟨st, m, rfl, hm,
        turnover_amended defaultConfig psSkipTick st m hm⟩

/-! ### Claim C8 -/

/-- A run state whose slot 0 is present yields a non-empty dropna
equity series for a non-empty tick list. -/
theorem dropnaEquity_ne_nil (cfg : Config) (t0 : Tick) (rest : List Tick)
    (st : St) (h0 : st.equity[0]? = some (some cfg.capital)) :
    dropnaEquity (t0 :: rest) st ≠ [] := by
  rcases he : st.equity with _ | ⟨e0, etail⟩
  · rw [he] at h0
    simp at h0
  · rw [he] at h0
    simp only [List.getElem?_cons_zero, Option.some.injEq] at h0
    subst h0
    simp [dropnaEquity, he]

unseal Rat.add Rat.mul Rat.sub Rat.inv in
/-- **C8 counterexample**: `psSameDay` is a non-empty, time-ascending
series whose run neither completes with metrics nor fails on empty
input or insolvency: both its equity points fall on one calendar day,
so `(end − start).days` is 0 and the annualized-return expression
`252 / days` raises `ZeroDivisionError` (outcome `zeroDaySpan` in the
embedding) — an unrecovered crash propagating to the caller. -/
theorem zero_span_crash_cex :
    psSameDay ≠ [] ∧ timeAscending psSameDay = true ∧
    backtest defaultConfig psSameDay = RunOutcome.zeroDaySpan :=
  ⟨by decide, by decide, by decide⟩

/-- **C8 amended**: a run returns the no-data marker exactly on empty
input; the empty-equity internal fallback can never propagate (slot 0
is always present); but besides insolvency there is a third escaping
failure — when all recorded equity lies within one calendar day, the
metrics stage divides 252 by a zero day span (`zeroDaySpan`); in every
other case the run completes with metrics. -/
theorem run_outcome_amended (cfg : Config) (ps : List Tick) :
    (backtest cfg ps = .noData ↔ ps = []) ∧
    backtest cfg ps ≠ .emptyEquity ∧
    (backtest cfg ps = .zeroDaySpan →
      ∃ st e0 tail, runOf cfg ps = some st ∧
        dropnaEquity ps st = e0 :: tail ∧
        daysBetween e0.1 ((dropnaEquity ps st).getLastD e0).1 = 0) ∧
    (ps ≠ [] →
      backtest cfg ps = .insolvent ∨ backtest cfg ps = .zeroDaySpan ∨
      ∃ m, backtest cfg ps = .ok m) := by
  rcases ps with _ | ⟨t0, rest⟩
  · refine ⟨by simp [backtest], by simp [backtest], ?_, ?_⟩
    · intro hc
      simp [backtest] at hc
    · intro hc
      simp at hc
  · rcases hr : runOf cfg (t0 :: rest) with _ | st
    · have hbt : backtest cfg (t0 :: rest) = RunOutcome.insolvent := by
        rw [backtest_eq_runOf cfg (t0 :: rest) t0 rest rfl, hr]
      rw [hbt]
      refine ⟨⟨fun h => RunOutcome.noConfusion h,
        fun h => List.noConfusion h⟩, fun h => RunOutcome.noConfusion h,
        fun h => absurd h (fun h => RunOutcome.noConfusion h), fun _ => ?_⟩
      exact Or.inl rfl
    · have hbt : backtest cfg (t0 :: rest) =
          calculate_performance_metrics cfg (t0 :: rest) st := by
        rw [backtest_eq_runOf cfg (t0 :: rest) t0 rest rfl, hr]
      obtain ⟨hempty, hzero, htri⟩ :=
        metrics_classification cfg (t0 :: rest) st
      obtain ⟨-, h0, -⟩ := runOf_equity_facts cfg t0 rest st hr
      have hdne := dropnaEquity_ne_nil cfg t0 rest st h0
      rw [hbt]
      refine ⟨?_, ?_, ?_, fun _ => ?_⟩
      · constructor
        · intro h
          rcases htri with h1 | h1 | ⟨m, h1⟩ <;> rw [h1] at h <;>
            exact RunOutcome.noConfusion h
        · intro h
          exact absurd h (fun h => List.noConfusion h)
      · intro h
        exact hdne (hempty.mp h)
      · intro h
        obtain ⟨e0, tail, hd, hdays⟩ := hzero h
        exact ⟨st, e0, tail, rfl, hd, hdays⟩
      · rcases htri with h1 | h1 | ⟨m, h1⟩
        · exact absurd (hempty.mp h1) hdne
        · exact Or.inr (Or.inl h1)
        · exact Or.inr (Or.inr ⟨m, h1⟩)

unseal Rat.add Rat.mul Rat.sub Rat.inv in
/-- Witness for the amended C8 statement on the `psSameDay` run. -/
theorem run_outcome_amended_witness :
    (backtest defaultConfig psSameDay = RunOutcome.noData ↔
      psSameDay = []) ∧
    (∃ st e0 tail, runOf defaultConfig psSameDay = some st ∧
      dropnaEquity psSameDay st = e0 :: tail ∧
      daysBetween e0.1 ((dropnaEquity psSameDay st).getLastD e0).1 = 0) ∧
    (backtest defaultConfig psSameDay = RunOutcome.insolvent ∨
     backtest defaultConfig psSameDay = RunOutcome.zeroDaySpan ∨
     ∃ m, backtest defaultConfig psSameDay = RunOutcome.ok m) := by
  obtain ⟨h1, _, h3, h4⟩ := run_outcome_amended defaultConfig psSameDay
  exact ⟨h1, h3 (by decide), h4 (by decide)⟩

/-! ### Claim C3 -/

/-- A bare ledger state at pivot 100 used to exercise the breach and
forced-close branches at concrete inputs. -/
def stBand : St :=
  { capital := 0, positions := [], trades := [],
    last_date := 0, daily_fee := 0, trade_history := [], last_valid_atr := 1,
    daily_atr := none, current_pivot := 100, grid_size := none, size := 0,
    equity := [] }

unseal Rat.add Rat.mul Rat.sub Rat.inv in
/-- **C3 counterexample**: in the `psMaxLoss` run under `cfgTinyMaxLoss`
the tick at price 99.2 lies inside the band
[100 − 6×1.47, 100 + 6×1.47], yet the pivot is reassigned from 100 to
99.2 — the open BUY at 99.3 is 10000 under water, past the max-loss
threshold of 5000, and the max-loss branch also rebases the pivot, so a
rebase is not only triggered by a band breach. -/
theorem pivot_rebase_cex :
    (stateAfter cfgTinyMaxLoss psMaxLoss 1).map
        (fun s => (s.current_pivot, s.grid_size)) =
      some (100, some (147 / 100)) ∧
    (stateAfter cfgTinyMaxLoss psMaxLoss 2).map (fun s => s.current_pivot) =
      some (992 / 10) ∧
    (100 : ℚ) - cfgTinyMaxLoss.move_pivot * (147 / 100) ≤ 992 / 10 ∧
    (992 : ℚ) / 10 ≤ 100 + cfgTinyMaxLoss.move_pivot * (147 / 100) ∧
    (992 : ℚ) / 10 ≠ 100 :=
  ⟨by decide, by decide, by decide, by decide, by decide⟩

/-- **C3 amended**: the band-breach close fires exactly when the price
strictly exceeds [pivot − move_pivot×grid_size, pivot + move_pivot×grid_size],
and after it the pivot equals the triggering price and the ledger is
empty; but the max-loss forced close also rebases the pivot (to the
triggering price, emptying the ledger) without any band condition, so
over a whole tick the pivot is reassigned when either flag fires and is
preserved otherwise. -/
theorem pivot_rebase_amended :
    (∀ (cfg : Config) (pvals : List ℚ) (i : ℕ) (price : ℚ) (ts : Timestamp)
        (st : St) (gs size : ℚ),
      ((breachStep cfg pvals i price ts st gs size).2.2.2 = true ↔
        (price < st.current_pivot - cfg.move_pivot * gs ∨
         st.current_pivot + cfg.move_pivot * gs < price)) ∧
      ((breachStep cfg pvals i price ts st gs size).2.2.2 = true →
        (breachStep cfg pvals i price ts st gs size).1.current_pivot = price ∧
        (breachStep cfg pvals i price ts st gs size).1.positions = [])) ∧
    (∀ (cfg : Config) (pvals : List ℚ) (i : ℕ) (price : ℚ) (ts : Timestamp)
        (tp ml : ℚ) (snap : List Pos) (st : St) (gs size : ℚ),
      (tpLossLoop cfg pvals i price ts tp ml snap st gs size).2.2.2 = true →
        (tpLossLoop cfg pvals i price ts tp ml snap st gs size).1.current_pivot
          = price ∧
        (tpLossLoop cfg pvals i price ts tp ml snap st gs size).1.positions
          = []) ∧
    (∀ (cfg : Config) (ps : List Tick) (ldd i : ℕ) (st st' : St)
        (f : TickFlags),
      processTick cfg ps ldd i st = some (st', f) →
      (f.breach = true ∨ f.maxLoss = true →
        st'.current_pivot = (ps.getD i (⟨0, 0⟩, 0)).2) ∧
      (f.breach = false ∧ f.maxLoss = false →
        st'.current_pivot = st.current_pivot)) := by
  refine ⟨fun cfg pvals i price ts st gs size => ?_,
    fun cfg pvals i price ts tp ml snap st gs size h => ?_,
    fun cfg ps ldd i st st' f h => processTick_pivot cfg ps ldd i st st' f h⟩
  · obtain ⟨hiff, htrue, -⟩ := breachStep_facts cfg pvals i price ts st gs size
    exact ⟨hiff, fun hb => ⟨(htrue hb).1, (htrue hb).2.1⟩⟩
  · obtain ⟨-, -, -, -, -, -, -, -, -, -, h11, -⟩ :=
      tpLossLoop_facts cfg pvals i price ts tp ml snap st gs size
    exact h11 h

unseal Rat.add Rat.mul Rat.sub Rat.inv in
/-- Witness for the amended C3 statement: a concrete band breach at
price 200 over pivot 100, a concrete forced max-loss close at price 50,
and the `psMaxLoss` tick whose max-loss flag rebases the pivot. -/
theorem pivot_rebase_amended_witness :
    ((breachStep defaultConfig [] 0 200 ⟨0, 0⟩ stBand 1 0).1.current_pivot =
        200 ∧
      (breachStep defaultConfig [] 0 200 ⟨0, 0⟩ stBand 1 0).1.positions =
        []) ∧
    ((tpLossLoop defaultConfig [] 0 50 ⟨0, 0⟩ 1000000000 1
        [Pos.mk Side.buy 100 1] stBand 1 1).1.current_pivot = 50 ∧
      (tpLossLoop defaultConfig [] 0 50 ⟨0, 0⟩ 1000000000 1
        [Pos.mk Side.buy 100 1] stBand 1 1).1.positions = []) ∧
    ∃ st1 pr, stateAfter cfgTinyMaxLoss psMaxLoss 1 = some st1 ∧
      processTick cfgTinyMaxLoss psMaxLoss 0 2 st1 = some pr ∧
      (pr.2.breach = true ∨ pr.2.maxLoss = true) ∧
      pr.1.current_pivot = (psMaxLoss.getD 2 (⟨0, 0⟩, 0)).2 := by
  obtain ⟨hbr, htl, hpt⟩ := pivot_rebase_amended
  have hb : (breachStep defaultConfig [] 0 200 ⟨0, 0⟩ stBand 1 0).2.2.2 =
      true :=
    (hbr defaultConfig [] 0 200 ⟨0, 0⟩ stBand 1 0).1.mpr (Or.inr (by decide))
  refine ⟨(hbr defaultConfig [] 0 200 ⟨0, 0⟩ stBand 1 0).2 hb,
    htl defaultConfig [] 0 50 ⟨0, 0⟩ 1000000000 1 [Pos.mk Side.buy 100 1]
      stBand 1 1 (by decide), ?_⟩
  have h1 : (stateAfter cfgTinyMaxLoss psMaxLoss 1).isSome = true := by decide
  obtain ⟨st1, hst1⟩ := Option.isSome_iff_exists.mp h1
  have h2 : ((stateAfter cfgTinyMaxLoss psMaxLoss 1).bind
      (fun s => processTick cfgTinyMaxLoss psMaxLoss 0 2 s)).isSome = true := by
    decide
  rw [hst1] at h2
  replace h2 : (processTick cfgTinyMaxLoss psMaxLoss 0 2 st1).isSome = true :=
    h2
  obtain ⟨pr, hpr⟩ := Option.isSome_iff_exists.mp h2
  have hflag : ((stateAfter cfgTinyMaxLoss psMaxLoss 1).bind
      (fun s => processTick cfgTinyMaxLoss psMaxLoss 0 2 s)).map
        (fun q => q.2.maxLoss) = some true := by decide
  rw [hst1] at hflag
  replace hflag : (processTick cfgTinyMaxLoss psMaxLoss 0 2 st1).map
      (fun q => q.2.maxLoss) = some true := hflag
  rw [hpr] at hflag
  replace hflag : pr.2.maxLoss = true := Option.some.inj hflag
  have happ := hpt cfgTinyMaxLoss psMaxLoss 0 2 st1 pr.1 pr.2 (by rw [hpr])
  exact ⟨st1, pr, hst1, hpr, Or.inr hflag, happ.1 (Or.inr hflag)⟩

/-! ### Claim C4 -/

theorem runFrom_append (cfg : Config) (ps : List Tick) (ldd : ℕ)
    (l1 l2 : List ℕ) : ∀ st, runFrom cfg ps ldd (l1 ++ l2) st =
      (runFrom cfg ps ldd l1 st).bind (fun s => runFrom cfg ps ldd l2 s) := by
  induction l1 with
  | nil => intro st; rfl
  | cons i rest ih =>
    intro st
    simp only [List.cons_append, runFrom]
    rcases hp : processTick cfg ps ldd i st with _ | ⟨s, f⟩
    · rfl
    · exact ih s

theorem runFrom_daily_atr_persist (cfg : Config) (ps : List Tick) (ldd : ℕ) :
    ∀ (l : List ℕ) (st st' : St) (v : ℚ),
      runFrom cfg ps ldd l st = some st' → st.daily_atr = some v →
      st'.daily_atr = some v := by
  intro l
  induction l with
  | nil =>
    intro st st' v h hv
    simp only [runFrom, Option.some.injEq] at h
    subst h
    exact hv
  | cons i rest ih =>
    intro st st' v h hv
    simp only [runFrom] at h
    rcases hp : processTick cfg ps ldd i st with _ | ⟨s, f⟩ <;> rw [hp] at h
    · exact Option.noConfusion h
    · exact ih s st' v h ((processTick_daily_atr cfg ps ldd i st s f hp).1 v hv)

unseal Rat.add Rat.mul Rat.sub Rat.inv in
/-- **C4 counterexample**: in the `psTwoDayAtr` run, day 1 has a
two-point pre-market window whose window ATR is 2, yet after day 1's
ticks the daily ATR still holds the value 1 assigned on day 0 (from the
fallback, day 0 having no pre-market data) — the daily ATR is not
recomputed at the first trading-time tick of every day. -/
theorem daily_atr_cex :
    (premarketData psTwoDayAtr 1).length = 2 ∧
    calculate_atr_window (premarketData psTwoDayAtr 1) 2 1 = 2 ∧
    (runOf defaultConfig psTwoDayAtr).map (fun s => s.daily_atr) =
      some (some 1) ∧
    (1 : ℚ) ≠ 2 :=
  ⟨by decide, by decide, by decide, by decide⟩

/-- **C4 amended**: the daily ATR is assigned once per run — at the
first trading-time tick processed while it is still unset, it takes the
day's pre-market window ATR when that window has at least 2 points and
the last valid ATR otherwise; once set (`some v`), every later
processed tick preserves it, so it is never recomputed on subsequent
days (the reset at a date rollover is absent from the source). -/
theorem daily_atr_amended :
    (∀ (cfg : Config) (ps : List Tick) (ldd i : ℕ) (st st' : St)
        (f : TickFlags), processTick cfg ps ldd i st = some (st', f) →
      (∀ v, st.daily_atr = some v → st'.daily_atr = some v) ∧
      (st.daily_atr = none →
        is_trading_time (ps.getD i (⟨0, 0⟩, 0)).1 = true →
        st'.daily_atr = some
          (if 2 ≤ (premarketData ps (ps.getD i (⟨0, 0⟩, 0)).1.date).length
           then
            calculate_atr_window
              (premarketData ps (ps.getD i (⟨0, 0⟩, 0)).1.date)
              (premarketData ps (ps.getD i (⟨0, 0⟩, 0)).1.date).length 1
           else st.last_valid_atr))) ∧
    (∀ (cfg : Config) (ps : List Tick) (k k' : ℕ) (st st' : St) (v : ℚ),
      k ≤ k' → stateAfter cfg ps k = some st → st.daily_atr = some v →
      stateAfter cfg ps k' = some st' → st'.daily_atr = some v) := by
  refine ⟨fun cfg ps ldd i st st' f h =>
    processTick_daily_atr cfg ps ldd i st st' f h, ?_⟩
  intro cfg ps k k' st st' v hkk hk hv hk'
  rcases ps with _ | ⟨t0, rest⟩
  · exact Option.noConfusion hk
  simp only [stateAfter] at hk hk'
  have hsplit : List.range' 1 k ++ List.range' (1 + k) (k' - k) =
      List.range' 1 k' := by
    have h := List.range'_append 1 k (k' - k) 1
    simp only [Nat.one_mul, Nat.mul_one] at h
    rw [h]
    congr 1
    omega
  rw [← hsplit, runFrom_append, hk] at hk'
  replace hk' : runFrom cfg (t0 :: rest) (((t0 :: rest).getLastD t0).1.date)
      (List.range' (1 + k) (k' - k)) st = some st' := hk'
  exact runFrom_daily_atr_persist cfg (t0 :: rest) _ _ st st' v hk' hv

unseal Rat.add Rat.mul Rat.sub Rat.inv in
/-- Witness for the amended C4 statement on the `psTwoDayAtr` run: the
assignment fires at tick 1 (day 0 fallback value 1, its pre-market
window being empty), and the value persists from tick 1 to the end of
the run. -/
theorem daily_atr_amended_witness :
    (∃ pr, processTick defaultConfig psTwoDayAtr 1 1
        (initState defaultConfig (⟨0, 32400⟩, 100) 5) = some pr ∧
      pr.1.daily_atr = some
        (if 2 ≤ (premarketData psTwoDayAtr
            (psTwoDayAtr.getD 1 (⟨0, 0⟩, 0)).1.date).length
         then
          calculate_atr_window
            (premarketData psTwoDayAtr
              (psTwoDayAtr.getD 1 (⟨0, 0⟩, 0)).1.date)
            (premarketData psTwoDayAtr
              (psTwoDayAtr.getD 1 (⟨0, 0⟩, 0)).1.date).length 1
         else (initState defaultConfig (⟨0, 32400⟩, 100) 5).last_valid_atr)) ∧
    ∃ st st', stateAfter defaultConfig psTwoDayAtr 1 = some st ∧
      stateAfter defaultConfig psTwoDayAtr 4 = some st' ∧
      st.daily_atr = some 1 ∧ st'.daily_atr = some 1 := by
  obtain ⟨hstep, hpersist⟩ := daily_atr_amended
  constructor
  · have h1 : (processTick defaultConfig psTwoDayAtr 1 1
        (initState defaultConfig (⟨0, 32400⟩, 100) 5)).isSome = true := by
      decide
    obtain ⟨pr, hpr⟩ := Option.isSome_iff_exists.mp h1
    refine ⟨pr, hpr, ?_⟩
    exact (hstep defaultConfig psTwoDayAtr 1 1 _ pr.1 pr.2
      (by rw [hpr])).2 rfl (by decide)
  · have h1 : (stateAfter defaultConfig psTwoDayAtr 1).isSome = true := by
      decide
    obtain ⟨st, hst⟩ := Option.isSome_iff_exists.mp h1
    have h4 : (stateAfter defaultConfig psTwoDayAtr 4).isSome = true := by
      decide
    obtain ⟨st', hst'⟩ := Option.isSome_iff_exists.mp h4
    have hv : (stateAfter defaultConfig psTwoDayAtr 1).map
        (fun s => s.daily_atr) = some (some 1) := by decide
    rw [hst] at hv
    replace hv : st.daily_atr = some 1 := Option.some.inj hv
    exact ⟨st, st', hst, hst', hv,
      hpersist defaultConfig psTwoDayAtr 1 4 st st' 1 (by omega) hst hv hst'⟩
end DynamicGrid
